import Mathlib

/-!
Verification of the boolean-literal propagation core in
`src/constraint_solver/booleans.cc` (classes `UnorderedRevArray`, `Atom`,
`Store`, `SumLessConstant`, `SumTriggerAction` and the posting helpers
`AddBoolEq`, `AddBoolLe`, `AddBoolNot`).

Modelling notes.
* `AtomIndex` (`DEFINE_INT_TYPE(AtomIndex, int)`) is a signed integer literal
  id; `kFailAtom = 0` is the fail sentinel.
* The source keeps two `std::vector<Atom*>` (`true_atoms_`, `false_atoms_`).
  The source never executes `new Atom(...)` and `TrueIndex` resizes the
  vectors to `raw_index` (not `raw_index + 1`), so in C++ the slot for a
  freshly returned literal is out of range and holds no `Atom` object; that
  defect is modelled separately through the `atomsSize` field (the exact
  length the `resize` calls produce).  The behaviour of the propagation
  machinery itself is modelled over total maps `Nat → Atom` in which every
  slot holds a default-constructed `Atom` record (empty lists, unflipped),
  which is the only defined reading of the remaining code.
* `solver()->Fail()` aborts the current propagation; it is modelled by the
  result `Res.fail`.  A violated `CHECK` (assertion abort) is `Res.error`.
  The mutually recursive cascade (`Store::Flip` / `Atom::Flip` /
  `SumLessConstant::Flip` / `SumTriggerAction::Flip`) is interpreted by a
  fuel-indexed function `run`; exhausted fuel gives `Res.timeout`.
* Reversible primitives (`NumericalRev`, `RevSwitch`, the reversible size of
  `UnorderedRevArray`) are modelled by their current values; backtracking
  itself is outside the claims treated here.
* `trigLog` is a ghost field recording each invocation of
  `SumTriggerAction::Flip` (constraint id, triggering literal).  It is
  written exactly at the entry of that function and read by no modelled code
  path, so it does not alter behaviour.
* The host classifier `Solver::IsBooleanVar` is external to the file; the
  posting helpers take it as a parameter `cl` mapping an expression id to
  `some (variable, negated)` or `none`.
-/

set_option maxRecDepth 20000

namespace Booleans

/-- `const static AtomIndex kFailAtom = AtomIndex(0);` -/
def kFailAtom : Int := 0

/-- One atom record: the fields of class `Atom`.
`sumLess` is `sum_less_constant_constraints_` (plain `std::vector`, ids of
`SumLessConstant` constraints), `trigElems`/`trigNum` are the
`elements_`/`num_elements_` pair of the `UnorderedRevArray` of
`SumTriggerAction` ids, `actions` is `actions_`, `flipped` is `flipped_`. -/
structure Atom where
  sumLess : List Nat
  trigElems : List Nat
  trigNum : Nat
  actions : List Int
  flipped : Bool
deriving DecidableEq

/-- A default-constructed `Atom`: empty lists, unflipped. -/
def Atom.mk0 : Atom := ⟨[], [], 0, [], false⟩

/-- Immutable data of a `SumLessConstant` (`vars_`, `constant_`). -/
structure SumLessConstant where
  vars : List Int
  constant : Int
deriving DecidableEq

/-- Immutable data of a `SumTriggerAction` (`vars_`, `constant_`, `actions_`). -/
structure SumTriggerAction where
  vars : List Int
  constant : Int
  actions : List Int
deriving DecidableEq

/-- `UnorderedRevArray::SwapTo` (specialised to swap `i` and `j`). -/
def listSwap (l : List Nat) (i j : Nat) : List Nat :=
  let a := l.getD i 0
  let b := l.getD j 0
  (l.set i b).set j a

/-- `UnorderedRevArray::Insert`: push the element and increment the
reversible size. -/
def urInsert (e : List Nat) (m : Nat) (x : Nat) : List Nat × Nat :=
  (e ++ [x], m + 1)

/-- `UnorderedRevArray::Remove`: decrement the reversible size, then swap the
removed position with the new last active position. -/
def urRemoveAt (e : List Nat) (m : Nat) (i : Nat) : List Nat × Nat :=
  (if i ≠ m - 1 then listSwap e i (m - 1) else e, m - 1)

/-- The linear search in `UnorderedRevArray::RemoveElement`: first active
position holding `x`. -/
def urFind (e : List Nat) (m : Nat) (x : Nat) : Option Nat :=
  (List.range m).find? (fun i => e.getD i 0 == x)

/-- `UnorderedRevArray::RemoveElement`. -/
def urRemoveElement (e : List Nat) (m : Nat) (x : Nat) : List Nat × Nat :=
  match urFind e m x with
  | some i => urRemoveAt e m i
  | none => (e, m)

/-- The state of class `Store` (plus the constraint objects it owns and the
ghost invocation log).  `indices` is `indices_` (a `VectorMap<IntVar*>`,
variables represented by their ids in insertion order); `atomsSize` is the
common length of `true_atoms_` / `false_atoms_` as produced by the `resize`
calls in `TrueIndex`; `trueAtoms` / `falseAtoms` give the atom record of each
slot; `slCts`/`slSums` are the registered `SumLessConstant` constraints and
their reversible `sum_` counters, `stCts`/`stSums` likewise for
`SumTriggerAction`. -/
structure Store where
  indices : List Nat
  atomsSize : Nat
  trueAtoms : Nat → Atom
  falseAtoms : Nat → Atom
  slCts : List SumLessConstant
  slSums : List Int
  stCts : List SumTriggerAction
  stSums : List Int
  trigLog : List (Nat × Int)

/-- A store holding no variables and no constraints. -/
def emptyStore : Store :=
  ⟨[], 0, fun _ => Atom.mk0, fun _ => Atom.mk0, [], [], [], [], []⟩

/-- `VectorMap::Add`: return the existing dense index of `v`, or append it. -/
def vmFind : List Nat → Nat → Option Nat
  | [], _ => none
  | x :: xs, v => if x = v then some 0 else (vmFind xs v).map (· + 1)

/-- See `vmFind`. -/
def vmAdd (l : List Nat) (v : Nat) : List Nat × Nat :=
  match vmFind l v with
  | some i => (l, i)
  | none => (l ++ [v], l.length)

/-- `Store::TrueIndex`: add the variable to `indices_`; if the raw index is
`≥` the vectors' size, `resize(raw_index)` both atom vectors; return
`1 + raw_index`. -/
def Store.TrueIndex (s : Store) (v : Nat) : Store × Int :=
  let p := vmAdd s.indices v
  let raw := p.2
  let sz := if s.atomsSize ≤ raw then raw else s.atomsSize
  ({ s with indices := p.1, atomsSize := sz }, 1 + (raw : Int))

/-- `Store::FalseIndex`: `-TrueIndex(var)`. -/
def Store.FalseIndex (s : Store) (v : Nat) : Store × Int :=
  let p := s.TrueIndex v
  (p.1, -p.2)

/-- `Store::Index`. -/
def Store.Index (s : Store) (v : Nat) (negated : Bool) : Store × Int :=
  if negated then s.FalseIndex v else s.TrueIndex v

/-- The slot a literal addresses: `atom.value() - 1` for positive literals,
`-1 - atom.value()` for the rest (`Store::FindAtom`). -/
def slotOf (a : Int) : Nat :=
  if 0 < a then (a - 1).toNat else (-1 - a).toNat

/-- Whether `Store::FindAtom` would stay inside the allocated range of the
atom vectors for this literal. -/
def Store.atomInRange (s : Store) (a : Int) : Prop :=
  slotOf a < s.atomsSize

/-- `Store::FindAtom`, reading the behavioural atom maps.  The source
`CHECK_NE(atom, kFailAtom)` holds at every modelled call site; note that the
literal `0` would address the same record as literal `-1`. -/
def Store.FindAtom (s : Store) (a : Int) : Atom :=
  if 0 < a then s.trueAtoms (a - 1).toNat else s.falseAtoms (-1 - a).toNat

/-- Functional update of the record addressed by a literal. -/
def Store.updAtom (s : Store) (a : Int) (f : Atom → Atom) : Store :=
  if 0 < a then
    { s with trueAtoms := fun k => if k = (a - 1).toNat then f (s.trueAtoms k) else s.trueAtoms k }
  else
    { s with falseAtoms := fun k => if k = (-1 - a).toNat then f (s.falseAtoms k) else s.falseAtoms k }

/-- `Store::IsFlipped`: the fail sentinel is reported unflipped without
touching any atom record. -/
def Store.IsFlipped (s : Store) (a : Int) : Bool :=
  if a = kFailAtom then false else (s.FindAtom a).flipped

/-- `Store::Listen(atom, SumLessConstant*)` → `Atom::Listen`: plain
`push_back`. -/
def Store.ListenSL (s : Store) (a : Int) (ci : Nat) : Store :=
  s.updAtom a (fun t => { t with sumLess := t.sumLess ++ [ci] })

/-- `Store::Listen(atom, SumTriggerAction*)` → `Atom::Listen`: insert into the
reversible compact set. -/
def Store.ListenST (s : Store) (a : Int) (ci : Nat) : Store :=
  s.updAtom a (fun t =>
    let p := urInsert t.trigElems t.trigNum ci
    { t with trigElems := p.1, trigNum := p.2 })

/-- `Store::StopListening` → `Atom::StopListening`: `RemoveElement` on the
reversible compact set. -/
def Store.StopListeningOne (s : Store) (a : Int) (ci : Nat) : Store :=
  s.updAtom a (fun t =>
    let p := urRemoveElement t.trigElems t.trigNum ci
    { t with trigElems := p.1, trigNum := p.2 })

/-- `Store::AddFlipAction` → `Atom::AddFlipAction`: append to `actions_`. -/
def Store.AddFlipAction (s : Store) (src dst : Int) : Store :=
  s.updAtom src (fun t => { t with actions := t.actions ++ [dst] })

/-- `flipped_.Switch(solver)` on the atom of a literal. -/
def Store.setFlag (s : Store) (a : Int) : Store :=
  s.updAtom a (fun t => { t with flipped := true })

/-- `SumLessConstant::Post`: register with the store and listen on every
member literal.  The constraint receives the next free id. -/
def slcPost (s : Store) (c : SumLessConstant) : Store :=
  let ci := s.slCts.length
  let s1 := { s with slCts := s.slCts ++ [c], slSums := s.slSums ++ [0] }
  c.vars.foldl (fun acc v => acc.ListenSL v ci) s1

/-- `SumTriggerAction::Post`. -/
def stPost (s : Store) (c : SumTriggerAction) : Store :=
  let ci := s.stCts.length
  let s1 := { s with stCts := s.stCts ++ [c], stSums := s.stSums ++ [0] }
  c.vars.foldl (fun acc v => acc.ListenST v ci) s1

/-- `SumTriggerAction::StopListening`: stop listening on every member
literal. -/
def stopListeningAll (s : Store) (ci : Nat) : Store :=
  ((s.stCts.getD ci ⟨[], 0, []⟩).vars).foldl (fun acc v => acc.StopListeningOne v ci) s

/-- Outcome of a propagation step: normal return with the new state, a
`solver()->Fail()` (branch failure), a violated `CHECK` (assertion abort), or
exhausted fuel. -/
inductive Res where
  | ok : Store → Res
  | fail : Res
  | error : Res
  | timeout : Res

/-- Sequencing: propagate `fail` / `error` / `timeout`. -/
def bindRes (r : Res) (f : Store → Res) : Res :=
  match r with
  | .ok s => f s
  | r => r

/-- The control points of the mutually recursive cascade:
`storeC a` = `Store::Flip(a)`;
`atomC a` = `Atom::Flip` on `a`'s atom;
`actsC a i` = the `actions_` loop of `Atom::Flip` from position `i`;
`slsC a i` = the `sum_less_constant_constraints_` loop from position `i`;
`stsC a i` = the `sum_trigger_actions_constraints_` loop from position `i`;
`slcC ci` = `SumLessConstant::Flip` of constraint `ci`;
`unflipC ci i` = `SumLessConstant::UnflipAllPending` loop from position `i`;
`stC ci a` = `SumTriggerAction::Flip` of `ci` triggered by literal `a`;
`flipAllC ci i` = `SumTriggerAction::FlipAllAction` loop from position `i`. -/
inductive Call where
  | storeC : Int → Call
  | atomC : Int → Call
  | actsC : Int → Nat → Call
  | slsC : Int → Nat → Call
  | stsC : Int → Nat → Call
  | slcC : Nat → Call
  | unflipC : Nat → Nat → Call
  | stC : Nat → Int → Call
  | flipAllC : Nat → Nat → Call

/-- Fuel-indexed interpreter of the cascade.  Each equation is the literal
body of the corresponding source function; every loop re-reads the evolving
state exactly as the source re-reads the container sizes and elements on
every iteration. -/
def run : Nat → Store → Call → Res
  | 0, _, _ => .timeout
  | n + 1, s, c =>
    match c with
    | .storeC a =>
      -- Store::Flip: `if (atom == kFailAtom || IsFlipped(-atom)) Fail();
      -- else FindAtom(atom)->Flip(this);`
      if a = kFailAtom ∨ s.IsFlipped (-a) = true then .fail
      else run n s (.atomC a)
    | .atomC a =>
      -- Atom::Flip: `CHECK(!flipped_.Switched()); flipped_.Switch(...);`
      -- then the three loops.
      if (s.FindAtom a).flipped then .error
      else
        let s1 := s.setFlag a
        bindRes (run n s1 (.actsC a 0)) fun s2 =>
          bindRes (run n s2 (.slsC a 0)) fun s3 =>
            run n s3 (.stsC a 0)
    | .actsC a i =>
      let acts := (s.FindAtom a).actions
      if i < acts.length then
        bindRes (run n s (.storeC (acts.getD i 0))) fun s' => run n s' (.actsC a (i + 1))
      else .ok s
    | .slsC a i =>
      let ls := (s.FindAtom a).sumLess
      if i < ls.length then
        bindRes (run n s (.slcC (ls.getD i 0))) fun s' => run n s' (.slsC a (i + 1))
      else .ok s
    | .stsC a i =>
      -- `for (i = 0; i < set.size(); ++i) set[i]->Flip(...)` on the
      -- reversible compact set: the bound and the element are re-read from
      -- the current state on every iteration.
      let t := s.FindAtom a
      if i < t.trigNum then
        bindRes (run n s (.stC (t.trigElems.getD i 0) a)) fun s' => run n s' (.stsC a (i + 1))
      else .ok s
    | .slcC ci =>
      -- SumLessConstant::Flip: `sum_.Incr(); if (sum > constant_) Fail();
      -- else if (sum == constant_) UnflipAllPending();`
      let k := (s.slCts.getD ci ⟨[], 0⟩).constant
      let s1 := { s with slSums := s.slSums.set ci (s.slSums.getD ci 0 + 1) }
      let v := s1.slSums.getD ci 0
      if v > k then .fail
      else if v = k then run n s1 (.unflipC ci 0)
      else .ok s1
    | .unflipC ci i =>
      -- UnflipAllPending: `for i: if (!IsFlipped(vars_[i])) Flip(-vars_[i])`
      -- (the local `count` is written but never checked: `// Check count.`).
      let vars := (s.slCts.getD ci ⟨[], 0⟩).vars
      if i < vars.length then
        let v := vars.getD i 0
        if s.IsFlipped v then run n s (.unflipC ci (i + 1))
        else bindRes (run n s (.storeC (-v))) fun s' => run n s' (.unflipC ci (i + 1))
      else .ok s
    | .stC ci a =>
      -- SumTriggerAction::Flip: `sum_.Incr(); if (sum >= constant_)
      -- { StopListening(); FlipAllAction(); }`
      let k := (s.stCts.getD ci ⟨[], 0, []⟩).constant
      let s1 := { s with stSums := s.stSums.set ci (s.stSums.getD ci 0 + 1),
                         trigLog := s.trigLog ++ [(ci, a)] }
      if s1.stSums.getD ci 0 ≥ k then
        run n (stopListeningAll s1 ci) (.flipAllC ci 0)
      else .ok s1
    | .flipAllC ci i =>
      let acts := (s.stCts.getD ci ⟨[], 0, []⟩).actions
      if i < acts.length then
        bindRes (run n s (.storeC (acts.getD i 0))) fun s' => run n s' (.flipAllC ci (i + 1))
      else .ok s

/-- `Store::VariableBound`: the host reports variable `index` bound; its
minimum decides the polarity to flip. -/
def Store.VariableBound (s : Store) (fuel : Nat) (index : Nat) (minVal : Int) : Res :=
  if minVal = 0 then run fuel s (.storeC (-1 - (index : Int)))
  else run fuel s (.storeC (1 + (index : Int)))

/-- `AddBoolEq`.  `cl` is the host classifier `Solver::IsBooleanVar`
(modelled from the spec: it is external to the file), mapping an expression
id to `some (variable, negated)` or `none`. -/
def AddBoolEq (cl : Nat → Option (Nat × Bool)) (s : Store) (left right : Nat) : Bool × Store :=
  match cl left with
  | none => (false, s)
  | some lp =>
    match cl right with
    | none => (false, s)
    | some rp =>
      let p1 := s.Index lp.1 lp.2
      let p2 := p1.1.Index rp.1 rp.2
      let la := p1.2
      let ra := p2.2
      let s3 := ((((p2.1.AddFlipAction la ra).AddFlipAction ra la).AddFlipAction (-la) (-ra)).AddFlipAction (-ra) (-la))
      (true, s3)

/-- `AddBoolLe`: edges `left → right` and `-right → -left` only. -/
def AddBoolLe (cl : Nat → Option (Nat × Bool)) (s : Store) (left right : Nat) : Bool × Store :=
  match cl left with
  | none => (false, s)
  | some lp =>
    match cl right with
    | none => (false, s)
    | some rp =>
      let p1 := s.Index lp.1 lp.2
      let p2 := p1.1.Index rp.1 rp.2
      let la := p1.2
      let ra := p2.2
      let s3 := (p2.1.AddFlipAction la ra).AddFlipAction (-ra) (-la)
      (true, s3)

/-- `AddBoolNot`: edges `l → -r`, `r → -l`, `-l → r`, `-r → l`. -/
def AddBoolNot (cl : Nat → Option (Nat × Bool)) (s : Store) (left right : Nat) : Bool × Store :=
  match cl left with
  | none => (false, s)
  | some lp =>
    match cl right with
    | none => (false, s)
    | some rp =>
      let p1 := s.Index lp.1 lp.2
      let p2 := p1.1.Index rp.1 rp.2
      let la := p1.2
      let ra := p2.2
      let s3 := ((((p2.1.AddFlipAction la (-ra)).AddFlipAction ra (-la)).AddFlipAction (-la) ra).AddFlipAction (-ra) la)
      (true, s3)

/-- Evaluate a boolean check on the final state of an `ok` outcome. -/
def onOk (r : Res) (f : Store → Bool) : Bool :=
  match r with
  | .ok s => f s
  | _ => false

/-- `true` iff the outcome is `Res.fail`. -/
def Res.isFail : Res → Bool
  | .fail => true
  | _ => false

/-- `true` iff the outcome is `Res.error`. -/
def Res.isError : Res → Bool
  | .error => true
  | _ => false

instance (s : Store) (a : Int) : Decidable (s.atomInRange a) :=
  Nat.decLt _ _

/-! ### Record access lemmas -/

@[simp] theorem updAtom_indices (s : Store) (a : Int) (f : Atom → Atom) :
    (s.updAtom a f).indices = s.indices := by
  unfold Store.updAtom; split <;> rfl

@[simp] theorem updAtom_atomsSize (s : Store) (a : Int) (f : Atom → Atom) :
    (s.updAtom a f).atomsSize = s.atomsSize := by
  unfold Store.updAtom; split <;> rfl

@[simp] theorem updAtom_slCts (s : Store) (a : Int) (f : Atom → Atom) :
    (s.updAtom a f).slCts = s.slCts := by
  unfold Store.updAtom; split <;> rfl

@[simp] theorem updAtom_slSums (s : Store) (a : Int) (f : Atom → Atom) :
    (s.updAtom a f).slSums = s.slSums := by
  unfold Store.updAtom; split <;> rfl

@[simp] theorem updAtom_stCts (s : Store) (a : Int) (f : Atom → Atom) :
    (s.updAtom a f).stCts = s.stCts := by
  unfold Store.updAtom; split <;> rfl

@[simp] theorem updAtom_stSums (s : Store) (a : Int) (f : Atom → Atom) :
    (s.updAtom a f).stSums = s.stSums := by
  unfold Store.updAtom; split <;> rfl

@[simp] theorem updAtom_trigLog (s : Store) (a : Int) (f : Atom → Atom) :
    (s.updAtom a f).trigLog = s.trigLog := by
  unfold Store.updAtom; split <;> rfl

/-- The record of literal `0` coincides with the record of literal `-1`
(`FindAtom` would be reached with atom `0` only past a violated `CHECK`). -/
theorem FindAtom_zero (s : Store) : s.FindAtom 0 = s.FindAtom (-1) := rfl

/-- Reading a record after a functional update: only the record of the
updated literal changes. -/
theorem FindAtom_updAtom (s : Store) (a : Int) (f : Atom → Atom) (b : Int)
    (ha : a ≠ 0) (hb : b ≠ 0) :
    (s.updAtom a f).FindAtom b = if b = a then f (s.FindAtom a) else s.FindAtom b := by
  unfold Store.updAtom Store.FindAtom
  by_cases hpa : 0 < a <;> by_cases hpb : 0 < b
  · by_cases hab : b = a
    · subst hab; simp [hpa]
    · have h1 : ¬((b - 1).toNat = (a - 1).toNat) := by omega
      have h2 : ¬(b.toNat - 1 = a.toNat - 1) := by omega
      simp [hpa, hpb, hab, h1, h2]
  · have hab : ¬(b = a) := by omega
    simp [hpa, hpb, hab]
  · have hab : ¬(b = a) := by omega
    simp [hpa, hpb, hab]
  · by_cases hab : b = a
    · subst hab; simp [hpa]
    · have h1 : ¬((-1 - b).toNat = (-1 - a).toNat) := by omega
      simp [hpa, hpb, hab, h1]

/-- Reading a projection that the update function leaves alone. -/
theorem FindAtom_updAtom_field {β : Type} (g : Atom → β) (s : Store) (a : Int) (f : Atom → Atom)
    (hg : ∀ t, g (f t) = g t) (b : Int) :
    g ((s.updAtom a f).FindAtom b) = g (s.FindAtom b) := by
  unfold Store.updAtom Store.FindAtom
  by_cases hpa : 0 < a <;> by_cases hpb : 0 < b
  · simp only [if_pos hpa, if_pos hpb]
    show g (if (b - 1).toNat = (a - 1).toNat then f (s.trueAtoms ((b - 1).toNat))
        else s.trueAtoms ((b - 1).toNat)) = g (s.trueAtoms ((b - 1).toNat))
    split
    · exact hg _
    · rfl
  · simp only [if_pos hpa, if_neg hpb]
  · simp only [if_neg hpa, if_pos hpb]
  · simp only [if_neg hpa, if_neg hpb]
    show g (if (-1 - b).toNat = (-1 - a).toNat then f (s.falseAtoms ((-1 - b).toNat))
        else s.falseAtoms ((-1 - b).toNat)) = g (s.falseAtoms ((-1 - b).toNat))
    split
    · exact hg _
    · rfl

/-! ### The cascade frame: data that propagation never modifies -/

/-- Fields the cascade never touches: the variable table, the allocated
size, the constraint objects, the lengths of the counter tables, and —
per atom record — the at-most-bound listener list and the flip-action edge
list (both are `push_back`-only and written exclusively at posting time). -/
def Frame (s s' : Store) : Prop :=
  s'.indices = s.indices ∧ s'.atomsSize = s.atomsSize ∧ s'.slCts = s.slCts ∧
  s'.stCts = s.stCts ∧ s'.slSums.length = s.slSums.length ∧
  s'.stSums.length = s.stSums.length ∧
  ∀ b : Int, (s'.FindAtom b).sumLess = (s.FindAtom b).sumLess ∧
    (s'.FindAtom b).actions = (s.FindAtom b).actions

theorem Frame.refl (s : Store) : Frame s s :=
  ⟨rfl, rfl, rfl, rfl, rfl, rfl, fun _ => ⟨rfl, rfl⟩⟩

theorem Frame.trans {s1 s2 s3 : Store} (h1 : Frame s1 s2) (h2 : Frame s2 s3) : Frame s1 s3 := by
  obtain ⟨a1, b1, c1, d1, e1, f1, g1⟩ := h1
  obtain ⟨a2, b2, c2, d2, e2, f2, g2⟩ := h2
  exact ⟨a2.trans a1, b2.trans b1, c2.trans c1, d2.trans d1, e2.trans e1, f2.trans f1,
    fun b => ⟨(g2 b).1.trans (g1 b).1, (g2 b).2.trans (g1 b).2⟩⟩

theorem frame_updAtom (s : Store) (a : Int) (f : Atom → Atom)
    (hs : ∀ t, (f t).sumLess = t.sumLess) (ha : ∀ t, (f t).actions = t.actions) :
    Frame s (s.updAtom a f) := by
  refine ⟨by simp, by simp, by simp, by simp, by simp, by simp, fun b => ⟨?_, ?_⟩⟩
  · exact FindAtom_updAtom_field (fun t => t.sumLess) s a f hs b
  · exact FindAtom_updAtom_field (fun t => t.actions) s a f ha b

theorem frame_setFlag (s : Store) (a : Int) : Frame s (s.setFlag a) :=
  frame_updAtom s a _ (fun _ => rfl) (fun _ => rfl)

theorem frame_stopListeningOne (s : Store) (a : Int) (ci : Nat) :
    Frame s (s.StopListeningOne a ci) :=
  frame_updAtom s a _ (fun _ => rfl) (fun _ => rfl)

theorem frame_stopListeningAll (s : Store) (ci : Nat) : Frame s (stopListeningAll s ci) := by
  unfold stopListeningAll
  generalize (s.stCts.getD ci ⟨[], 0, []⟩).vars = l
  induction l generalizing s with
  | nil => exact Frame.refl s
  | cons v t ih =>
    exact Frame.trans (frame_stopListeningOne s v ci) (ih (s.StopListeningOne v ci))

theorem frame_setSlSums (s : Store) (ci : Nat) (v : Int) :
    Frame s { s with slSums := s.slSums.set ci v } := by
  refine ⟨rfl, rfl, rfl, rfl, by simp, rfl, fun b => ⟨rfl, rfl⟩⟩

theorem frame_stStep (s : Store) (ci : Nat) (v : Int) (e : Nat × Int) :
    Frame s { s with stSums := s.stSums.set ci v, trigLog := s.trigLog ++ [e] } := by
  refine ⟨rfl, rfl, rfl, rfl, rfl, by simp, fun b => ⟨rfl, rfl⟩⟩

/-- Split a successful `bindRes` into its two successful stages. -/
theorem bindRes_ok_elim {r : Res} {f : Store → Res} {s' : Store} (h : bindRes r f = .ok s') :
    ∃ s1, r = .ok s1 ∧ f s1 = .ok s' := by
  cases r with
  | ok s => exact ⟨s, rfl, h⟩
  | fail => exact Res.noConfusion h
  | error => exact Res.noConfusion h
  | timeout => exact Res.noConfusion h

/-- Master frame preservation: every successful propagation step only
changes flip flags, trigger-listener sets, counters and the ghost log. -/
theorem frame_run : ∀ (n : Nat) (c : Call) (s s' : Store), run n s c = .ok s' → Frame s s' := by
  intro n
  induction n with
  | zero => intro c s s' h; exact Res.noConfusion h
  | succ n ih =>
    intro c s s' h
    cases c with
    | storeC a =>
      simp only [run] at h
      split at h
      · exact Res.noConfusion h
      · exact ih _ _ _ h
    | atomC a =>
      simp only [run] at h
      split at h
      · exact Res.noConfusion h
      · obtain ⟨s2, h2, h3⟩ := bindRes_ok_elim h
        obtain ⟨s3, h4, h5⟩ := bindRes_ok_elim h3
        exact (((frame_setFlag s a).trans (ih _ _ _ h2)).trans (ih _ _ _ h4)).trans (ih _ _ _ h5)
    | actsC a i =>
      simp only [run] at h
      split at h
      · obtain ⟨s1, h1, h2⟩ := bindRes_ok_elim h
        exact (ih _ _ _ h1).trans (ih _ _ _ h2)
      · cases h; exact Frame.refl s
    | slsC a i =>
      simp only [run] at h
      split at h
      · obtain ⟨s1, h1, h2⟩ := bindRes_ok_elim h
        exact (ih _ _ _ h1).trans (ih _ _ _ h2)
      · cases h; exact Frame.refl s
    | stsC a i =>
      simp only [run] at h
      split at h
      · obtain ⟨s1, h1, h2⟩ := bindRes_ok_elim h
        exact (ih _ _ _ h1).trans (ih _ _ _ h2)
      · cases h; exact Frame.refl s
    | slcC ci =>
      simp only [run] at h
      split at h
      · exact Res.noConfusion h
      · split at h
        · exact (frame_setSlSums s ci _).trans (ih _ _ _ h)
        · cases h; exact frame_setSlSums s ci _
    | unflipC ci i =>
      simp only [run] at h
      split at h
      · split at h
        · exact ih _ _ _ h
        · obtain ⟨s1, h1, h2⟩ := bindRes_ok_elim h
          exact (ih _ _ _ h1).trans (ih _ _ _ h2)
      · cases h; exact Frame.refl s
    | stC ci a =>
      simp only [run] at h
      split at h
      · exact ((frame_stStep s ci _ _).trans
          (frame_stopListeningAll _ ci)).trans (ih _ _ _ h)
      · cases h; exact frame_stStep s ci _ _
    | flipAllC ci i =>
      simp only [run] at h
      split at h
      · obtain ⟨s1, h1, h2⟩ := bindRes_ok_elim h
        exact (ih _ _ _ h1).trans (ih _ _ _ h2)
      · cases h; exact Frame.refl s

/-! ### Flip-flag lemmas and the no-contradiction invariant -/

/-- An update that does not touch the flip flag leaves every `IsFlipped`
reading unchanged. -/
theorem IsFlipped_updAtom (s : Store) (a : Int) (f : Atom → Atom)
    (hf : ∀ t, (f t).flipped = t.flipped) (b : Int) :
    (s.updAtom a f).IsFlipped b = s.IsFlipped b := by
  unfold Store.IsFlipped
  split
  · rfl
  · exact FindAtom_updAtom_field (fun t => t.flipped) s a f hf b

/-- Effect of `flipped_.Switch` on `IsFlipped`. -/
theorem IsFlipped_setFlag (s : Store) (a : Int) (ha : a ≠ 0) (b : Int) :
    (s.setFlag a).IsFlipped b = if b = a then true else s.IsFlipped b := by
  by_cases hb : b = 0
  · subst hb
    have : ¬((0 : Int) = a) := fun h => ha h.symm
    simp [Store.IsFlipped, kFailAtom, this]
  · unfold Store.IsFlipped Store.setFlag
    rw [FindAtom_updAtom s a _ b ha hb]
    simp only [kFailAtom, hb, if_neg hb, if_false]
    split
    · rfl
    · rfl

/-- `IsFlipped` is insensitive to counter and log updates. -/
theorem IsFlipped_setCounters (s : Store) (sl st : List Int) (lg : List (Nat × Int)) (b : Int) :
    Store.IsFlipped { s with slSums := sl, stSums := st, trigLog := lg } b = s.IsFlipped b := rfl

theorem IsFlipped_stopListeningOne (s : Store) (v : Int) (ci : Nat) (b : Int) :
    (s.StopListeningOne v ci).IsFlipped b = s.IsFlipped b := by
  unfold Store.StopListeningOne
  apply IsFlipped_updAtom
  intro t
  rfl

theorem IsFlipped_stopListeningAll (s : Store) (ci : Nat) (b : Int) :
    (stopListeningAll s ci).IsFlipped b = s.IsFlipped b := by
  unfold stopListeningAll
  generalize (s.stCts.getD ci ⟨[], 0, []⟩).vars = l
  induction l generalizing s with
  | nil => rfl
  | cons v t ih => rw [List.foldl_cons, ih, IsFlipped_stopListeningOne]

/-- The canonical contradiction-freedom invariant: no literal and its
negation are both flipped. -/
def NoContra (s : Store) : Prop :=
  ∀ a : Int, ¬(s.IsFlipped a = true ∧ s.IsFlipped (-a) = true)

theorem nocontra_setFlag (s : Store) (a : Int) (ha : a ≠ 0)
    (hopp : s.IsFlipped (-a) = false) (h : NoContra s) : NoContra (s.setFlag a) := by
  intro b hb
  obtain ⟨h1, h2⟩ := hb
  rw [IsFlipped_setFlag s a ha b] at h1
  rw [IsFlipped_setFlag s a ha (-b)] at h2
  by_cases hba : b = a
  · subst hba
    have hne : ¬(-b = b) := by omega
    rw [if_neg hne] at h2
    exact absurd h2 (by simp [hopp])
  · rw [if_neg hba] at h1
    by_cases hbna : b = -a
    · subst hbna
      exact absurd h1 (by simp [hopp])
    · have hne : ¬(-b = a) := by omega
      rw [if_neg hne] at h2
      exact h b ⟨h1, h2⟩

/-- Extra precondition of `Atom::Flip`, established by its only caller
`Store::Flip`. -/
def preNC : Call → Store → Prop
  | .atomC a, s => a ≠ 0 ∧ s.IsFlipped (-a) = false
  | _, _ => True

/-- Master preservation of the no-contradiction invariant along every
successful propagation step. -/
theorem nocontra_run : ∀ (n : Nat) (c : Call) (s s' : Store),
    NoContra s → run n s c = .ok s' → preNC c s → NoContra s' := by
  intro n
  induction n with
  | zero => intro c s s' _ h _; exact Res.noConfusion h
  | succ n ih =>
    intro c s s' hNC h hpre
    cases c with
    | storeC a =>
      simp only [run] at h
      by_cases hcond : a = kFailAtom ∨ s.IsFlipped (-a) = true
      · rw [if_pos hcond] at h; exact Res.noConfusion h
      · rw [if_neg hcond] at h
        push_neg at hcond
        have ha : a ≠ 0 := hcond.1
        have hopp : s.IsFlipped (-a) = false := by
          have := hcond.2; cases hx : s.IsFlipped (-a)
          · rfl
          · exact absurd hx this
        exact ih _ _ _ hNC h ⟨ha, hopp⟩
    | atomC a =>
      have hpre' : a ≠ 0 ∧ s.IsFlipped (-a) = false := hpre
      obtain ⟨ha, hopp⟩ := hpre'
      simp only [run] at h
      split at h
      · exact Res.noConfusion h
      · obtain ⟨s2, h2, h3⟩ := bindRes_ok_elim h
        obtain ⟨s3, h4, h5⟩ := bindRes_ok_elim h3
        have hNC1 : NoContra (s.setFlag a) := nocontra_setFlag s a ha hopp hNC
        exact ih _ _ _ (ih _ _ _ (ih _ _ _ hNC1 h2 trivial) h4 trivial) h5 trivial
    | actsC a i =>
      simp only [run] at h
      split at h
      · obtain ⟨s1, h1, h2⟩ := bindRes_ok_elim h
        exact ih _ _ _ (ih _ _ _ hNC h1 trivial) h2 trivial
      · cases h; exact hNC
    | slsC a i =>
      simp only [run] at h
      split at h
      · obtain ⟨s1, h1, h2⟩ := bindRes_ok_elim h
        exact ih _ _ _ (ih _ _ _ hNC h1 trivial) h2 trivial
      · cases h; exact hNC
    | stsC a i =>
      simp only [run] at h
      split at h
      · obtain ⟨s1, h1, h2⟩ := bindRes_ok_elim h
        exact ih _ _ _ (ih _ _ _ hNC h1 trivial) h2 trivial
      · cases h; exact hNC
    | slcC ci =>
      simp only [run] at h
      split at h
      · exact Res.noConfusion h
      · split at h
        · refine ih _ _ _ ?_ h trivial
          exact hNC
        · cases h; exact hNC
    | unflipC ci i =>
      simp only [run] at h
      split at h
      · split at h
        · exact ih _ _ _ hNC h trivial
        · obtain ⟨s1, h1, h2⟩ := bindRes_ok_elim h
          exact ih _ _ _ (ih _ _ _ hNC h1 trivial) h2 trivial
      · cases h; exact hNC
    | stC ci a =>
      simp only [run] at h
      split at h
      · refine ih _ _ _ ?_ h trivial
        intro b hb
        obtain ⟨hb1, hb2⟩ := hb
        rw [IsFlipped_stopListeningAll] at hb1 hb2
        exact hNC b ⟨hb1, hb2⟩
      · cases h; exact hNC
    | flipAllC ci i =>
      simp only [run] at h
      split at h
      · obtain ⟨s1, h1, h2⟩ := bindRes_ok_elim h
        exact ih _ _ _ (ih _ _ _ hNC h1 trivial) h2 trivial
      · cases h; exact hNC

/-! ### Active-prefix counting for the reversible compact set -/

theorem getD_set {α : Type _} (l : List α) (i j : Nat) (v d : α) :
    (l.set i v).getD j d = if i = j ∧ i < l.length then v else l.getD j d := by
  rw [List.getD_eq_getElem?_getD, List.getElem?_set, List.getD_eq_getElem?_getD]
  by_cases h1 : i = j
  · subst h1
    by_cases h2 : i < l.length
    · simp [h2]
    · have h3 : l.length ≤ i := Nat.le_of_not_lt h2
      simp [h2, List.getElem?_eq_none h3]
  · simp [h1]

/-- Number of active positions (`< m`) of the compact set holding `x`. -/
def actCnt (e : List Nat) (m : Nat) (x : Nat) : Nat :=
  (List.range m).countP (fun j => e.getD j 0 == x)

theorem actCnt_succ (e : List Nat) (m x : Nat) :
    actCnt e (m + 1) x = actCnt e m x + (if e.getD m 0 = x then 1 else 0) := by
  unfold actCnt
  rw [List.range_succ, List.countP_append]
  simp [List.countP_cons]

theorem actCnt_eq_zero {e : List Nat} {m x : Nat} :
    actCnt e m x = 0 ↔ ∀ j < m, e.getD j 0 ≠ x := by
  unfold actCnt
  rw [List.countP_eq_zero]
  constructor
  · intro h j hj
    have := h j (List.mem_range.mpr hj)
    simpa using this
  · intro h j hj
    have := h j (List.mem_range.mp hj)
    simpa using this

/-- Replace the predicate at one position: both counts over `range m` differ
exactly by the exchange at position `i`. -/
theorem countP_range_mod (m i : Nat) (hi : i < m) (p q : Nat → Bool)
    (hagree : ∀ j, j < m → j ≠ i → p j = q j) :
    (List.range m).countP q + (if p i then 1 else 0) =
      (List.range m).countP p + (if q i then 1 else 0) := by
  induction m with
  | zero => omega
  | succ m ih =>
    rw [List.range_succ, List.countP_append, List.countP_append]
    by_cases him : i = m
    · subst him
      have : (List.range i).countP q = (List.range i).countP p := by
        apply List.countP_congr
        intro j hj
        have hj' := List.mem_range.mp hj
        rw [hagree j (by omega) (Nat.ne_of_lt hj')]
      rw [this]
      simp only [List.countP_cons, List.countP_nil]
      omega
    · have hi' : i < m := by omega
      have hrec := ih hi' (fun j hj hji => hagree j (by omega) hji)
      have hpm : p m = q m := hagree m (by omega) (by omega)
      simp only [List.countP_cons, List.countP_nil, hpm]
      omega

/-- A successful `RemoveElement` removes exactly one active occurrence. -/
theorem actCnt_urRemoveElement_self (e : List Nat) (m x : Nat)
    (hlen : m ≤ e.length) (hpos : actCnt e m x ≠ 0) :
    (urRemoveElement e m x).2 = m - 1 ∧
      actCnt (urRemoveElement e m x).1 (m - 1) x = actCnt e m x - 1 := by
  cases hfind : urFind e m x with
  | none =>
    exfalso
    apply hpos
    rw [actCnt_eq_zero]
    intro j hj
    have hnone := List.find?_eq_none.mp hfind j (List.mem_range.mpr hj)
    simpa using hnone
  | some i =>
    have hi_mem : i < m := List.mem_range.mp (List.mem_of_find?_eq_some hfind)
    have hi_val : e.getD i 0 = x := by
      have := List.find?_some hfind
      simpa using this
    have hre : urRemoveElement e m x = (if i ≠ m - 1 then listSwap e i (m - 1) else e, m - 1) := by
      unfold urRemoveElement urRemoveAt
      rw [hfind]
    rw [hre]
    refine ⟨rfl, ?_⟩
    by_cases him : i = m - 1
    · rw [if_neg (by omega)]
      show actCnt e (m - 1) x = actCnt e m x - 1
      subst him
      have hm : m = (m - 1) + 1 := by omega
      have hstep := actCnt_succ e (m - 1) x
      rw [← hm] at hstep
      rw [if_pos hi_val] at hstep
      omega
    · rw [if_pos him]
      show actCnt (listSwap e i (m - 1)) (m - 1) x = actCnt e m x - 1
      have hi_lt : i < m - 1 := by omega
      have hm1_lt : m - 1 < e.length := by omega
      have hi_len : i < e.length := by omega
      -- after the swap the value at `i` is the old value at `m - 1`
      set b := e.getD (m - 1) 0 with hb
      have hval : ∀ j, j < m - 1 →
          (listSwap e i (m - 1)).getD j 0 = if j = i then b else e.getD j 0 := by
        intro j hj
        unfold listSwap
        rw [getD_set, getD_set]
        have h1 : ¬(m - 1 = j ∧ m - 1 < (e.set i (e.getD (m-1) 0)).length) := by
          intro hc
          omega
        rw [if_neg h1]
        by_cases hji : j = i
        · subst hji
          rw [if_pos ⟨rfl, hi_len⟩, if_pos rfl]
        · rw [if_neg (by intro hc; exact hji hc.1.symm), if_neg hji]
      -- relate the two counts over `range (m - 1)`
      have hmod := countP_range_mod (m - 1) i hi_lt
        (fun j => e.getD j 0 == x)
        (fun j => (listSwap e i (m - 1)).getD j 0 == x)
        (by
          intro j hj hji
          simp only []
          rw [hval j hj, if_neg hji])
      have hqi : (listSwap e i (m - 1)).getD i 0 = b := by
        rw [hval i hi_lt]
        simp
      have hsucc : actCnt e m x = actCnt e (m - 1) x + (if e.getD (m - 1) 0 = x then 1 else 0) := by
        have h := actCnt_succ e (m - 1) x
        have hm : m - 1 + 1 = m := by omega
        rw [hm] at h
        exact h
      have hCq : (List.range (m - 1)).countP (fun j => (listSwap e i (m - 1)).getD j 0 == x) =
          actCnt (listSwap e i (m - 1)) (m - 1) x := rfl
      have hCp : (List.range (m - 1)).countP (fun j => e.getD j 0 == x) =
          actCnt e (m - 1) x := rfl
      rw [hCq, hCp] at hmod
      by_cases hbx : b = x
      · have h1 : (if ((fun j => e.getD j 0 == x) i) = true then 1 else 0) = 1 := by
          simp only [hi_val]
          simp
        have h2 : (if ((fun j => (listSwap e i (m - 1)).getD j 0 == x) i) = true then 1 else 0) = 1 := by
          simp only [hqi]
          simp [hbx]
        rw [h1, h2] at hmod
        rw [if_pos hbx] at hsucc
        omega
      · have h1 : (if ((fun j => e.getD j 0 == x) i) = true then 1 else 0) = 1 := by
          simp only [hi_val]
          simp
        have h2 : (if ((fun j => (listSwap e i (m - 1)).getD j 0 == x) i) = true then 1 else 0) = 0 := by
          simp only [hqi]
          simp [hbx]
        rw [h1, h2] at hmod
        rw [if_neg hbx] at hsucc
        omega

/-- `RemoveElement` never introduces a new active value: absence of `y` from
the active prefix is preserved (whatever element is being removed). -/
theorem actCnt_urRemoveElement_zero (e : List Nat) (m x y : Nat) (h : actCnt e m y = 0) :
    actCnt (urRemoveElement e m x).1 (urRemoveElement e m x).2 y = 0 := by
  have habs : ∀ j < m, e.getD j 0 ≠ y := actCnt_eq_zero.mp h
  cases hfind : urFind e m x with
  | none =>
    have hre : urRemoveElement e m x = (e, m) := by
      unfold urRemoveElement
      rw [hfind]
    rw [hre]
    exact h
  | some i =>
    have hi_mem : i < m := List.mem_range.mp (List.mem_of_find?_eq_some hfind)
    have hre : urRemoveElement e m x = (if i ≠ m - 1 then listSwap e i (m - 1) else e, m - 1) := by
      unfold urRemoveElement urRemoveAt
      rw [hfind]
    rw [hre]
    by_cases him : i = m - 1
    · rw [if_neg (by omega)]
      show actCnt e (m - 1) y = 0
      rw [actCnt_eq_zero]
      intro j hj
      exact habs j (by omega)
    · rw [if_pos him]
      show actCnt (listSwap e i (m - 1)) (m - 1) y = 0
      rw [actCnt_eq_zero]
      intro j hj
      unfold listSwap
      rw [getD_set, getD_set]
      split
      · next hcond => exact absurd hcond.1 (by omega)
      · split
        · next hcond => exact habs (m - 1) (by omega)
        · exact habs j (by omega)

/-- Fully general record-read-after-update lemma: the read sees the update
exactly when both literals address the same slot of the same polarity map. -/
theorem FindAtom_updAtom_gen (s : Store) (a : Int) (f : Atom → Atom) (b : Int) :
    (s.updAtom a f).FindAtom b =
      if (0 < b ↔ 0 < a) ∧ slotOf b = slotOf a then f (s.FindAtom b) else s.FindAtom b := by
  unfold Store.updAtom Store.FindAtom slotOf
  by_cases hpa : 0 < a <;> by_cases hpb : 0 < b
  · simp only [if_pos hpa, if_pos hpb, iff_self, true_and]
    by_cases hs : (b - 1).toNat = (a - 1).toNat
    · rw [if_pos hs, if_pos (by exact ⟨by tauto, hs⟩)]
    · rw [if_neg hs, if_neg (by intro hc; exact hs hc.2)]
  · rw [if_pos hpa, if_neg hpb, if_neg (by intro hc; exact hpb (hc.1.mpr hpa)), if_neg hpb]
  · rw [if_neg hpa, if_pos hpb, if_neg (by intro hc; exact hpa (hc.1.mp hpb)), if_pos hpb]
  · simp only [if_neg hpa, if_neg hpb]
    by_cases hs : (-1 - b).toNat = (-1 - a).toNat
    · rw [if_pos hs, if_pos (by exact ⟨by tauto, hs⟩)]
    · rw [if_neg hs, if_neg (by intro hc; exact hs hc.2)]

/-! ### Detachment of a trigger constraint -/

/-- Trigger constraint `ct` is listening nowhere: it is absent from the
active prefix of every literal's reversible listener set. -/
def detachedTrig (s : Store) (ct : Nat) : Prop :=
  ∀ b : Int, actCnt (s.FindAtom b).trigElems (s.FindAtom b).trigNum ct = 0

/-- Ghost count of `SumTriggerAction::Flip` invocations of constraint `ct`. -/
def logCt (s : Store) (ct : Nat) : Nat :=
  s.trigLog.countP (fun e => e.1 == ct)

theorem detached_updAtom (s : Store) (a : Int) (f : Atom → Atom) (ct : Nat)
    (hf : ∀ t, actCnt t.trigElems t.trigNum ct = 0 → actCnt (f t).trigElems (f t).trigNum ct = 0)
    (hd : detachedTrig s ct) : detachedTrig (s.updAtom a f) ct := by
  intro b
  rw [FindAtom_updAtom_gen]
  split
  · exact hf _ (hd b)
  · exact hd b

theorem detached_setFlag (s : Store) (a : Int) (ct : Nat) (hd : detachedTrig s ct) :
    detachedTrig (s.setFlag a) ct :=
  detached_updAtom s a _ ct (fun _ h => h) hd

theorem detached_stopListeningOne (s : Store) (v : Int) (ci ct : Nat)
    (hd : detachedTrig s ct) : detachedTrig (s.StopListeningOne v ci) ct :=
  detached_updAtom s v _ ct
    (fun t h => actCnt_urRemoveElement_zero t.trigElems t.trigNum ci ct h) hd

theorem detached_stopListeningAll (s : Store) (ci ct : Nat) (hd : detachedTrig s ct) :
    detachedTrig (stopListeningAll s ci) ct := by
  unfold stopListeningAll
  generalize (s.stCts.getD ci ⟨[], 0, []⟩).vars = l
  induction l generalizing s with
  | nil => exact hd
  | cons v t ih => exact ih (s.StopListeningOne v ci) (detached_stopListeningOne s v ci ct hd)

theorem trigLog_stopListeningAll (s : Store) (ci : Nat) :
    (stopListeningAll s ci).trigLog = s.trigLog := by
  unfold stopListeningAll
  generalize (s.stCts.getD ci ⟨[], 0, []⟩).vars = l
  induction l generalizing s with
  | nil => rfl
  | cons v t ih =>
    rw [List.foldl_cons, ih]
    unfold Store.StopListeningOne
    simp

/-- A detached constraint is not among the elements the listener loop of
`Atom::Flip` can pick up. -/
theorem detached_not_picked (s : Store) (a : Int) (ct i : Nat) (hd : detachedTrig s ct)
    (hi : i < (s.FindAtom a).trigNum) : (s.FindAtom a).trigElems.getD i 0 ≠ ct :=
  actCnt_eq_zero.mp (hd a) i hi

/-- Extra precondition for the detachment master: `SumTriggerAction::Flip`
is only reached for constraints that are still listening somewhere. -/
def preDet (ct : Nat) : Call → Prop
  | .stC ci _ => ci ≠ ct
  | _ => True

/-- Master detachment preservation: once a trigger constraint is listening
nowhere, a successful propagation step keeps it detached and never invokes
its `Flip` (the ghost log count for it stays constant). -/
theorem detach_run (ct : Nat) : ∀ (n : Nat) (c : Call) (s s' : Store),
    detachedTrig s ct → run n s c = .ok s' → preDet ct c →
    detachedTrig s' ct ∧ logCt s' ct = logCt s ct := by
  intro n
  induction n with
  | zero => intro c s s' _ h _; exact Res.noConfusion h
  | succ n ih =>
    intro c s s' hd h hp
    cases c with
    | storeC a =>
      simp only [run] at h
      split at h
      · exact Res.noConfusion h
      · exact ih _ _ _ hd h trivial
    | atomC a =>
      simp only [run] at h
      split at h
      · exact Res.noConfusion h
      · obtain ⟨s2, h2, h3⟩ := bindRes_ok_elim h
        obtain ⟨s3, h4, h5⟩ := bindRes_ok_elim h3
        have hd1 : detachedTrig (s.setFlag a) ct := detached_setFlag s a ct hd
        have r1 := ih _ _ _ hd1 h2 trivial
        have r2 := ih _ _ _ r1.1 h4 trivial
        have r3 := ih _ _ _ r2.1 h5 trivial
        refine ⟨r3.1, ?_⟩
        rw [r3.2, r2.2, r1.2]
        unfold logCt Store.setFlag
        simp
    | actsC a i =>
      simp only [run] at h
      split at h
      · obtain ⟨s1, h1, h2⟩ := bindRes_ok_elim h
        have r1 := ih _ _ _ hd h1 trivial
        have r2 := ih _ _ _ r1.1 h2 trivial
        exact ⟨r2.1, r2.2.trans r1.2⟩
      · cases h; exact ⟨hd, rfl⟩
    | slsC a i =>
      simp only [run] at h
      split at h
      · obtain ⟨s1, h1, h2⟩ := bindRes_ok_elim h
        have r1 := ih _ _ _ hd h1 trivial
        have r2 := ih _ _ _ r1.1 h2 trivial
        exact ⟨r2.1, r2.2.trans r1.2⟩
      · cases h; exact ⟨hd, rfl⟩
    | stsC a i =>
      simp only [run] at h
      split at h
      · next hcond =>
        obtain ⟨s1, h1, h2⟩ := bindRes_ok_elim h
        have hne : (s.FindAtom a).trigElems.getD i 0 ≠ ct :=
          detached_not_picked s a ct i hd hcond
        have r1 := ih _ _ _ hd h1 hne
        have r2 := ih _ _ _ r1.1 h2 trivial
        exact ⟨r2.1, r2.2.trans r1.2⟩
      · cases h; exact ⟨hd, rfl⟩
    | slcC ci =>
      simp only [run] at h
      split at h
      · exact Res.noConfusion h
      · split at h
        · have r := ih _ _ _ (show detachedTrig
            { s with slSums := s.slSums.set ci (s.slSums.getD ci 0 + 1) } ct from hd) h trivial
          exact ⟨r.1, r.2⟩
        · cases h; exact ⟨hd, rfl⟩
    | unflipC ci i =>
      simp only [run] at h
      split at h
      · split at h
        · exact ih _ _ _ hd h trivial
        · obtain ⟨s1, h1, h2⟩ := bindRes_ok_elim h
          have r1 := ih _ _ _ hd h1 trivial
          have r2 := ih _ _ _ r1.1 h2 trivial
          exact ⟨r2.1, r2.2.trans r1.2⟩
      · cases h; exact ⟨hd, rfl⟩
    | stC ci a =>
      have hci : ci ≠ ct := hp
      simp only [run] at h
      split at h
      · have hd1 : detachedTrig (stopListeningAll
            { s with stSums := s.stSums.set ci (s.stSums.getD ci 0 + 1),
                     trigLog := s.trigLog ++ [(ci, a)] } ci) ct :=
          detached_stopListeningAll _ ci ct (show detachedTrig _ ct from hd)
        have r := ih _ _ _ hd1 h trivial
        refine ⟨r.1, ?_⟩
        rw [r.2]
        unfold logCt
        rw [trigLog_stopListeningAll]
        simp only [List.countP_append, List.countP_cons, List.countP_nil]
        have : (((ci, a) : Nat × Int).1 == ct) = false := by
          simp [hci]
        rw [this]
        simp
      · cases h
        unfold logCt
        simp only [List.countP_append, List.countP_cons, List.countP_nil]
        have : (((ci, a) : Nat × Int).1 == ct) = false := by
          simp [hci]
        rw [this]
        exact ⟨show detachedTrig _ ct from hd, by simp⟩
    | flipAllC ci i =>
      simp only [run] at h
      split at h
      · obtain ⟨s1, h1, h2⟩ := bindRes_ok_elim h
        have r1 := ih _ _ _ hd h1 trivial
        have r2 := ih _ _ _ r1.1 h2 trivial
        exact ⟨r2.1, r2.2.trans r1.2⟩
      · cases h; exact ⟨hd, rfl⟩

/-! ### Counter accounting for `SumLessConstant` -/

/-- Current value of the reversible `sum_` counter of `SumLessConstant`
`cs`. -/
def sumOf (s : Store) (cs : Nat) : Int := s.slSums.getD cs 0

/-- Number of member literals of `cs` currently flipped (with
multiplicity). -/
def flippedCnt (s : Store) (cs : Nat) : Nat :=
  ((s.slCts.getD cs ⟨[], 0⟩).vars).countP (fun v => s.IsFlipped v)

/-- The invariant `SumLessConstant::Post` establishes: the at-most-bound
listener list of every literal's record holds `cs` exactly as often as that
literal occurs in the member list. -/
def listenWF (s : Store) (cs : Nat) : Prop :=
  ∀ b : Int, b ≠ 0 →
    (s.FindAtom b).sumLess.count cs = ((s.slCts.getD cs ⟨[], 0⟩).vars).count b

/-- Generic fold-preservation over a store. -/
theorem foldl_store_pres {α : Type _} (g : Store → α) (step : Store → Int → Store)
    (hstep : ∀ s v, g (step s v) = g s) (l : List Int) (s : Store) :
    g (l.foldl step s) = g s := by
  induction l generalizing s with
  | nil => rfl
  | cons v t ih => rw [List.foldl_cons, ih, hstep]

theorem slCts_stopListeningAll (s : Store) (ci : Nat) :
    (stopListeningAll s ci).slCts = s.slCts :=
  foldl_store_pres (fun s => s.slCts) _ (fun s v => updAtom_slCts s v _) _ s

theorem slSums_stopListeningAll (s : Store) (ci : Nat) :
    (stopListeningAll s ci).slSums = s.slSums :=
  foldl_store_pres (fun s => s.slSums) _ (fun s v => updAtom_slSums s v _) _ s

theorem sumOf_stopListeningAll (s : Store) (ci cs : Nat) :
    sumOf (stopListeningAll s ci) cs = sumOf s cs := by
  unfold sumOf
  rw [slSums_stopListeningAll]

theorem flippedCnt_stopListeningAll (s : Store) (ci cs : Nat) :
    flippedCnt (stopListeningAll s ci) cs = flippedCnt s cs := by
  unfold flippedCnt
  rw [slCts_stopListeningAll]
  apply List.countP_congr
  intro v _
  rw [IsFlipped_stopListeningAll]

theorem listenWF_frame {s s' : Store} (hF : Frame s s') {cs : Nat} (h : listenWF s cs) :
    listenWF s' cs := by
  intro b hb
  rw [(hF.2.2.2.2.2.2 b).1, hF.2.2.1]
  exact h b hb

/-- A predicate flipped from `false` to `true` at exactly one value raises
`countP` by the multiplicity of that value. -/
theorem countP_flip_at {α : Type _} [DecidableEq α] (l : List α) (p q : α → Bool) (a : α)
    (hpa : p a = false) (hqa : q a = true) (hother : ∀ x, x ≠ a → q x = p x) :
    l.countP q = l.countP p + l.count a := by
  induction l with
  | nil => rfl
  | cons x t ih =>
    rw [List.countP_cons, List.countP_cons, List.count_cons, ih]
    by_cases hx : x = a
    · subst hx
      rw [hqa, hpa]
      simp
      omega
    · rw [hother x hx]
      have : (x == a) = false := by simp [hx]
      rw [this]
      simp
      omega

theorem flippedCnt_setFlag (s : Store) (a : Int) (cs : Nat) (ha : a ≠ 0)
    (hflip : s.IsFlipped a = false) :
    flippedCnt (s.setFlag a) cs =
      flippedCnt s cs + ((s.slCts.getD cs ⟨[], 0⟩).vars).count a := by
  unfold flippedCnt
  rw [show (s.setFlag a).slCts = s.slCts from updAtom_slCts s a _]
  exact countP_flip_at _ _ _ a hflip
    (by rw [IsFlipped_setFlag s a ha]; simp)
    (fun x hx => by rw [IsFlipped_setFlag s a ha x, if_neg hx])

theorem sumOf_setFlag (s : Store) (a : Int) (cs : Nat) :
    sumOf (s.setFlag a) cs = sumOf s cs := by
  unfold sumOf
  rw [show (s.setFlag a).slSums = s.slSums from updAtom_slSums s a _]

theorem sumOf_set_self (s : Store) (cs : Nat) (v : Int) (hlen : cs < s.slSums.length) :
    sumOf { s with slSums := s.slSums.set cs v } cs = v := by
  unfold sumOf
  simp only []
  rw [getD_set]
  rw [if_pos ⟨rfl, hlen⟩]

theorem sumOf_set_other (s : Store) (ci cs : Nat) (v : Int) (h : ci ≠ cs) :
    sumOf { s with slSums := s.slSums.set ci v } cs = sumOf s cs := by
  unfold sumOf
  simp only []
  rw [getD_set]
  rw [if_neg (by intro hc; exact h hc.1)]

theorem count_drop_succ (l : List Nat) (i : Nat) (hi : i < l.length) (x : Nat) :
    (l.drop i).count x = (if l.getD i 0 = x then 1 else 0) + (l.drop (i + 1)).count x := by
  rw [List.drop_eq_getElem_cons hi, List.count_cons, List.getD_eq_getElem l 0 hi]
  by_cases h : l[i] = x
  · rw [if_pos h]
    have h1 : (l[i] == x) = true := by simp [h]
    rw [h1, if_pos rfl]
    omega
  · rw [if_neg h]
    have h1 : (l[i] == x) = false := by simp [h]
    rw [h1]
    have h2 : (if (false = true) then 1 else 0) = 0 := rfl
    rw [h2]
    omega

theorem count_drop_ge (l : List Nat) (i : Nat) (hi : ¬i < l.length) (x : Nat) :
    (l.drop i).count x = 0 := by
  rw [List.drop_eq_nil_of_le (by omega)]
  rfl

/-- Extra precondition for the accounting master (`Atom::Flip` is only
reached for a nonzero literal, guaranteed by `Store::Flip`). -/
def preDebt : Call → Prop
  | .atomC a => a ≠ 0
  | _ => True

/-- How much the counter of `cs` is scheduled to catch up on the flipped
members at each control point: the still-pending part of the listener loop
of `Atom::Flip`, resp. the single increment of `SumLessConstant::Flip`. -/
def debtDelta (cs : Nat) (c : Call) (s : Store) : Int :=
  match c with
  | .slsC a i => (((s.FindAtom a).sumLess.drop i).count cs : Int)
  | .slcC ci => if ci = cs then 1 else 0
  | _ => 0

theorem IsFlipped_eq_flipped (s : Store) (a : Int) (ha : a ≠ 0) :
    s.IsFlipped a = (s.FindAtom a).flipped := by
  unfold Store.IsFlipped
  rw [if_neg (by simpa [kFailAtom] using ha)]

theorem wf_transport {s s' : Store} (cs : Nat) (K : Int) (hF : Frame s s')
    (h1 : listenWF s cs) (h2 : cs < s.slSums.length)
    (h3 : (s.slCts.getD cs ⟨[], 0⟩).constant = K) :
    listenWF s' cs ∧ cs < s'.slSums.length ∧ (s'.slCts.getD cs ⟨[], 0⟩).constant = K :=
  ⟨listenWF_frame hF h1, by rw [hF.2.2.2.2.1]; exact h2, by rw [hF.2.2.1]; exact h3⟩

/-- Master counter accounting for one `SumLessConstant` `cs` with bound `K`:
on every successful step, the difference between the flipped-member count
and the `sum_` counter changes exactly by the step's scheduled delta, the
counter never decreases, and it never climbs above `K` once below it. -/
theorem debt_run (cs : Nat) (K : Int) : ∀ (n : Nat) (c : Call) (s s' : Store),
    listenWF s cs → cs < s.slSums.length →
    (s.slCts.getD cs ⟨[], 0⟩).constant = K →
    run n s c = .ok s' → preDebt c →
    ((flippedCnt s' cs : Int) - sumOf s' cs
        = (flippedCnt s cs : Int) - sumOf s cs - debtDelta cs c s)
      ∧ sumOf s cs ≤ sumOf s' cs
      ∧ (sumOf s cs ≤ K → sumOf s' cs ≤ K) := by
  intro n
  induction n with
  | zero => intro c s s' _ _ _ h _; exact Res.noConfusion h
  | succ n ih =>
    intro c s s' hWF hlen hK h hpre
    cases c with
    | storeC a =>
      simp only [run] at h
      split at h
      · exact Res.noConfusion h
      · next hcond =>
        have ha : a ≠ 0 := by
          intro hc
          exact hcond (Or.inl (by simpa [kFailAtom] using hc))
        have r := ih _ _ _ hWF hlen hK h ha
        exact ⟨r.1, r.2⟩
    | atomC a =>
      have ha : a ≠ 0 := hpre
      simp only [run] at h
      split at h
      · exact Res.noConfusion h
      · next hflip =>
        obtain ⟨s2, h2, h3⟩ := bindRes_ok_elim h
        obtain ⟨s3, h4, h5⟩ := bindRes_ok_elim h3
        have hF1 : Frame s (s.setFlag a) := frame_setFlag s a
        obtain ⟨w1a, w1b, w1c⟩ := wf_transport cs K hF1 hWF hlen hK
        have r2 := ih _ _ _ w1a w1b w1c h2 trivial
        have hF2 : Frame (s.setFlag a) s2 := frame_run n _ _ _ h2
        obtain ⟨w2a, w2b, w2c⟩ := wf_transport cs K hF2 w1a w1b w1c
        have r3 := ih _ _ _ w2a w2b w2c h4 trivial
        have hF3 : Frame s2 s3 := frame_run n _ _ _ h4
        obtain ⟨w3a, w3b, w3c⟩ := wf_transport cs K hF3 w2a w2b w2c
        have r4 := ih _ _ _ w3a w3b w3c h5 trivial
        -- the flag flip raises the member count by the multiplicity of `a`
        have hfl : s.IsFlipped a = false := by
          rw [IsFlipped_eq_flipped s a ha]
          simpa using hflip
        have hset : flippedCnt (s.setFlag a) cs =
            flippedCnt s cs + ((s.slCts.getD cs ⟨[], 0⟩).vars).count a :=
          flippedCnt_setFlag s a cs ha hfl
        have hsums : sumOf (s.setFlag a) cs = sumOf s cs := sumOf_setFlag s a cs
        -- the listener loop pays the same multiplicity back
        have hrec : (s2.FindAtom a).sumLess = (s.FindAtom a).sumLess := by
          rw [(hF2.2.2.2.2.2.2 a).1, (hF1.2.2.2.2.2.2 a).1]
        have hdrop : ((s2.FindAtom a).sumLess.drop 0).count cs =
            ((s.slCts.getD cs ⟨[], 0⟩).vars).count a := by
          rw [List.drop_zero, hrec]
          exact hWF a ha
        have e2 := r2.1
        have e3 := r3.1
        have e4 := r4.1
        simp only [debtDelta] at e2 e3 e4 ⊢
        rw [hdrop] at e3
        refine ⟨?_, ?_, ?_⟩
        · rw [e4, e3, e2, hset, hsums]
          push_cast
          ring
        · calc sumOf s cs = sumOf (s.setFlag a) cs := hsums.symm
            _ ≤ sumOf s2 cs := r2.2.1
            _ ≤ sumOf s3 cs := r3.2.1
            _ ≤ sumOf s' cs := r4.2.1
        · intro hb
          exact r4.2.2 (r3.2.2 (r2.2.2 (by rw [hsums]; exact hb)))
    | actsC a i =>
      simp only [run] at h
      split at h
      · obtain ⟨s1, h1, h2⟩ := bindRes_ok_elim h
        have r1 := ih _ _ _ hWF hlen hK h1 trivial
        have hF1 : Frame s s1 := frame_run n _ _ _ h1
        obtain ⟨w1a, w1b, w1c⟩ := wf_transport cs K hF1 hWF hlen hK
        have r2 := ih _ _ _ w1a w1b w1c h2 trivial
        have e1 := r1.1
        have e2 := r2.1
        simp only [debtDelta] at e1 e2 ⊢
        exact ⟨by rw [e2, e1]; ring, le_trans r1.2.1 r2.2.1, fun hb => r2.2.2 (r1.2.2 hb)⟩
      · cases h
        simp only [debtDelta]
        exact ⟨by ring, le_refl _, fun hb => hb⟩
    | slsC a i =>
      simp only [run] at h
      split at h
      · next hcond =>
        obtain ⟨s1, h1, h2⟩ := bindRes_ok_elim h
        have r1 := ih _ _ _ hWF hlen hK h1 trivial
        have hF1 : Frame s s1 := frame_run n _ _ _ h1
        obtain ⟨w1a, w1b, w1c⟩ := wf_transport cs K hF1 hWF hlen hK
        have r2 := ih _ _ _ w1a w1b w1c h2 trivial
        have hrec : (s1.FindAtom a).sumLess = (s.FindAtom a).sumLess :=
          (hF1.2.2.2.2.2.2 a).1
        have e1 := r1.1
        have e2 := r2.1
        simp only [debtDelta] at e1 e2 ⊢
        rw [hrec] at e2
        have hstep := count_drop_succ (s.FindAtom a).sumLess i hcond cs
        refine ⟨?_, le_trans r1.2.1 r2.2.1, fun hb => r2.2.2 (r1.2.2 hb)⟩
        rw [e2, e1, hstep]
        by_cases hx : (s.FindAtom a).sumLess.getD i 0 = cs
        · rw [if_pos hx, if_pos hx]
          push_cast
          ring
        · rw [if_neg hx, if_neg hx]
          push_cast
          ring
      · next hcond =>
        cases h
        simp only [debtDelta]
        rw [count_drop_ge _ _ hcond]
        exact ⟨by push_cast; ring, le_refl _, fun hb => hb⟩
    | stsC a i =>
      simp only [run] at h
      split at h
      · obtain ⟨s1, h1, h2⟩ := bindRes_ok_elim h
        have r1 := ih _ _ _ hWF hlen hK h1 trivial
        have hF1 : Frame s s1 := frame_run n _ _ _ h1
        obtain ⟨w1a, w1b, w1c⟩ := wf_transport cs K hF1 hWF hlen hK
        have r2 := ih _ _ _ w1a w1b w1c h2 trivial
        have e1 := r1.1
        have e2 := r2.1
        simp only [debtDelta] at e1 e2 ⊢
        exact ⟨by rw [e2, e1]; ring, le_trans r1.2.1 r2.2.1, fun hb => r2.2.2 (r1.2.2 hb)⟩
      · cases h
        simp only [debtDelta]
        exact ⟨by ring, le_refl _, fun hb => hb⟩
    | slcC ci =>
      simp only [run] at h
      have hfc1 : flippedCnt { s with slSums := s.slSums.set ci (s.slSums.getD ci 0 + 1) } cs
          = flippedCnt s cs := rfl
      split at h
      · exact Res.noConfusion h
      · next hgt =>
        by_cases hcs : ci = cs
        · subst hcs
          have hs1 : sumOf { s with slSums := s.slSums.set ci (s.slSums.getD ci 0 + 1) } ci
              = sumOf s ci + 1 := by
            rw [sumOf_set_self s ci _ hlen]
            rfl
          have hveq : (s.slSums.set ci (s.slSums.getD ci 0 + 1)).getD ci 0 = sumOf s ci + 1 := hs1
          have hle : sumOf s ci + 1 ≤ K := by
            rw [← hK]
            rw [hveq] at hgt
            omega
          split at h
          · next heq =>
            have hF1 : Frame s { s with slSums := s.slSums.set ci (s.slSums.getD ci 0 + 1) } :=
              frame_setSlSums s ci _
            obtain ⟨w1a, w1b, w1c⟩ := wf_transport ci K hF1 hWF hlen hK
            have r := ih _ _ _ w1a w1b w1c h trivial
            have e := r.1
            simp only [debtDelta] at e ⊢
            rw [hfc1, hs1] at e
            refine ⟨by rw [e]; simp only [if_true]; ring, ?_, ?_⟩
            · have hmono := r.2.1
              rw [hs1] at hmono
              omega
            · intro hb
              apply r.2.2
              rw [hs1]
              exact hle
          · next hne =>
            cases h
            simp only [debtDelta]
            rw [hfc1, hs1]
            exact ⟨by simp only [if_true]; ring, by omega, fun hb => hle⟩
        · have hs1 : sumOf { s with slSums := s.slSums.set ci (s.slSums.getD ci 0 + 1) } cs
              = sumOf s cs := sumOf_set_other s ci cs _ hcs
          split at h
          · next heq =>
            have hF1 : Frame s { s with slSums := s.slSums.set ci (s.slSums.getD ci 0 + 1) } :=
              frame_setSlSums s ci _
            obtain ⟨w1a, w1b, w1c⟩ := wf_transport cs K hF1 hWF hlen hK
            have r := ih _ _ _ w1a w1b w1c h trivial
            have e := r.1
            simp only [debtDelta] at e ⊢
            rw [hfc1, hs1] at e
            refine ⟨by rw [e, if_neg hcs], ?_, ?_⟩
            · have := r.2.1
              rw [hs1] at this
              omega
            · intro hb
              apply r.2.2
              rw [hs1]
              exact hb
          · next hne =>
            cases h
            simp only [debtDelta]
            rw [if_neg hcs, hfc1, hs1]
            exact ⟨by ring, le_refl _, fun hb => hb⟩
    | unflipC ci i =>
      simp only [run] at h
      split at h
      · split at h
        · have r := ih _ _ _ hWF hlen hK h trivial
          have e := r.1
          simp only [debtDelta] at e ⊢
          exact ⟨by rw [e], r.2.1, r.2.2⟩
        · obtain ⟨s1, h1, h2⟩ := bindRes_ok_elim h
          have r1 := ih _ _ _ hWF hlen hK h1 trivial
          have hF1 : Frame s s1 := frame_run n _ _ _ h1
          obtain ⟨w1a, w1b, w1c⟩ := wf_transport cs K hF1 hWF hlen hK
          have r2 := ih _ _ _ w1a w1b w1c h2 trivial
          have e1 := r1.1
          have e2 := r2.1
          simp only [debtDelta] at e1 e2 ⊢
          exact ⟨by rw [e2, e1]; ring, le_trans r1.2.1 r2.2.1, fun hb => r2.2.2 (r1.2.2 hb)⟩
      · cases h
        simp only [debtDelta]
        exact ⟨by ring, le_refl _, fun hb => hb⟩
    | stC ci a =>
      simp only [run] at h
      split at h
      · have hF1 : Frame s (stopListeningAll
            { s with stSums := s.stSums.set ci (s.stSums.getD ci 0 + 1),
                     trigLog := s.trigLog ++ [(ci, a)] } ci) :=
          Frame.trans (frame_stStep s ci _ _) (frame_stopListeningAll _ ci)
        obtain ⟨w1a, w1b, w1c⟩ := wf_transport cs K hF1 hWF hlen hK
        have r := ih _ _ _ w1a w1b w1c h trivial
        have hfc : flippedCnt (stopListeningAll
            { s with stSums := s.stSums.set ci (s.stSums.getD ci 0 + 1),
                     trigLog := s.trigLog ++ [(ci, a)] } ci) cs = flippedCnt s cs := by
          rw [flippedCnt_stopListeningAll]
          rfl
        have hsm : sumOf (stopListeningAll
            { s with stSums := s.stSums.set ci (s.stSums.getD ci 0 + 1),
                     trigLog := s.trigLog ++ [(ci, a)] } ci) cs = sumOf s cs := by
          rw [sumOf_stopListeningAll]
          rfl
        have e := r.1
        simp only [debtDelta] at e ⊢
        rw [hfc, hsm] at e
        refine ⟨by rw [e], ?_, ?_⟩
        · have := r.2.1
          rw [hsm] at this
          exact this
        · intro hb
          have := r.2.2
          rw [hsm] at this
          exact this hb
      · cases h
        simp only [debtDelta]
        refine ⟨?_, le_refl _, fun hb => hb⟩
        show (flippedCnt s cs : Int) - sumOf s cs = (flippedCnt s cs : Int) - sumOf s cs - 0
        ring
    | flipAllC ci i =>
      simp only [run] at h
      split at h
      · obtain ⟨s1, h1, h2⟩ := bindRes_ok_elim h
        have r1 := ih _ _ _ hWF hlen hK h1 trivial
        have hF1 : Frame s s1 := frame_run n _ _ _ h1
        obtain ⟨w1a, w1b, w1c⟩ := wf_transport cs K hF1 hWF hlen hK
        have r2 := ih _ _ _ w1a w1b w1c h2 trivial
        have e1 := r1.1
        have e2 := r2.1
        simp only [debtDelta] at e1 e2 ⊢
        exact ⟨by rw [e2, e1]; ring, le_trans r1.2.1 r2.2.1, fun hb => r2.2.2 (r1.2.2 hb)⟩
      · cases h
        simp only [debtDelta]
        exact ⟨by ring, le_refl _, fun hb => hb⟩

/-! ### `SumTriggerAction::StopListening` removes every registration -/

/-- Multiplicity of `ct` in the active listener set of literal `b`'s
record. -/
def trigCntOf (s : Store) (b : Int) (ct : Nat) : Nat :=
  actCnt (s.FindAtom b).trigElems (s.FindAtom b).trigNum ct

/-- Well-formedness of the reversible compact sets: the reversible size
never exceeds the backing vector (`Insert` and `Remove` maintain this). -/
def trigWF (s : Store) : Prop :=
  ∀ b : Int, (s.FindAtom b).trigNum ≤ (s.FindAtom b).trigElems.length

theorem urRemoveElement_len (e : List Nat) (m x : Nat) :
    (urRemoveElement e m x).1.length = e.length ∧ (urRemoveElement e m x).2 ≤ m := by
  cases hf : urFind e m x with
  | none =>
    have hre : urRemoveElement e m x = (e, m) := by
      unfold urRemoveElement
      rw [hf]
    rw [hre]
    exact ⟨rfl, le_refl m⟩
  | some i =>
    have hre : urRemoveElement e m x = (if i ≠ m - 1 then listSwap e i (m - 1) else e, m - 1) := by
      unfold urRemoveElement urRemoveAt
      rw [hf]
    rw [hre]
    refine ⟨?_, by omega⟩
    show (if i ≠ m - 1 then listSwap e i (m - 1) else e).length = e.length
    split
    · unfold listSwap
      simp
    · rfl

theorem trigWF_stopListeningOne (s : Store) (v : Int) (ci : Nat) (h : trigWF s) :
    trigWF (s.StopListeningOne v ci) := by
  intro b
  unfold Store.StopListeningOne
  rw [FindAtom_updAtom_gen]
  split
  · have hlen := urRemoveElement_len (s.FindAtom b).trigElems (s.FindAtom b).trigNum ci
    simp only []
    rw [hlen.1]
    have := h b
    omega
  · exact h b

/-- Two distinct nonzero literals never address the same record. -/
theorem sameRec_iff (b v : Int) (hb : b ≠ 0) (hv : v ≠ 0) :
    ((0 < b ↔ 0 < v) ∧ slotOf b = slotOf v) ↔ b = v := by
  unfold slotOf
  constructor
  · rintro ⟨h1, h2⟩
    by_cases hpb : 0 < b <;> by_cases hpv : 0 < v
    · rw [if_pos hpb, if_pos hpv] at h2
      omega
    · exact absurd (h1.mp hpb) hpv
    · exact absurd (h1.mpr hpv) hpb
    · rw [if_neg hpb, if_neg hpv] at h2
      omega
  · rintro rfl
    exact ⟨Iff.rfl, rfl⟩

theorem trigCntOf_stopListeningOne_same (s : Store) (v : Int) (ct : Nat) (hv : v ≠ 0)
    (hWF : trigWF s) (hpos : trigCntOf s v ct ≠ 0) :
    trigCntOf (s.StopListeningOne v ct) v ct = trigCntOf s v ct - 1 := by
  unfold trigCntOf Store.StopListeningOne
  rw [FindAtom_updAtom_gen]
  rw [if_pos ((sameRec_iff v v hv hv).mpr rfl)]
  have hre := actCnt_urRemoveElement_self (s.FindAtom v).trigElems (s.FindAtom v).trigNum ct
    (hWF v) hpos
  simp only []
  rw [hre.1]
  exact hre.2

theorem trigCntOf_stopListeningOne_other (s : Store) (v b : Int) (ct : Nat)
    (hv : v ≠ 0) (hb : b ≠ 0) (hne : b ≠ v) :
    trigCntOf (s.StopListeningOne v ct) b ct = trigCntOf s b ct := by
  unfold trigCntOf Store.StopListeningOne
  rw [FindAtom_updAtom_gen]
  rw [if_neg (by rw [sameRec_iff b v hb hv]; exact hne)]

/-- Running `StopListening` over a member list removes exactly the
per-occurrence registrations: if every record holds `ct` with the
multiplicity of the corresponding literal in the list, the fold leaves `ct`
registered nowhere. -/
theorem stopListen_fold_detaches (ct : Nat) (l : List Int) : ∀ s : Store,
    (∀ b : Int, b ≠ 0 → trigCntOf s b ct = l.count b) → trigWF s → (0 : Int) ∉ l →
    detachedTrig (l.foldl (fun acc v => acc.StopListeningOne v ct) s) ct := by
  induction l with
  | nil =>
    intro s hmult _ _ b
    by_cases hb : b = 0
    · subst hb
      show actCnt (s.FindAtom 0).trigElems (s.FindAtom 0).trigNum ct = 0
      rw [FindAtom_zero]
      exact hmult (-1) (by omega)
    · exact hmult b hb
  | cons v t ih =>
    intro s hmult hWF h0
    have hv : v ≠ 0 := by
      intro hc
      exact h0 (by rw [hc]; exact List.mem_cons_self 0 t)
    rw [List.foldl_cons]
    apply ih
    · intro b hb
      by_cases hbv : b = v
      · subst hbv
        have hcnt : trigCntOf s b ct = t.count b + 1 := by
          rw [hmult b hb, List.count_cons]
          simp
        rw [trigCntOf_stopListeningOne_same s b ct hb hWF (by omega), hcnt]
        omega
      · rw [trigCntOf_stopListeningOne_other s v b ct hv hb hbv, hmult b hb, List.count_cons]
        have : (v == b) = false := by
          simp
          intro hc
          exact hbv hc.symm
        rw [this]
        simp
    · exact trigWF_stopListeningOne s v ct hWF
    · intro hc
      exact h0 (List.mem_cons_of_mem v hc)

/-! ### Posting-time lemmas -/

/-- Resolving an index never touches any atom record. -/
theorem FindAtom_Index (s : Store) (v : Nat) (neg : Bool) (b : Int) :
    ((s.Index v neg).1).FindAtom b = s.FindAtom b := by
  unfold Store.Index Store.FalseIndex Store.TrueIndex
  split <;> rfl

/-- A resolved literal is never the fail sentinel: its magnitude is
`1 + raw_index`. -/
theorem Index_snd_ne_zero (s : Store) (v : Nat) (neg : Bool) : (s.Index v neg).2 ≠ 0 := by
  unfold Store.Index Store.FalseIndex Store.TrueIndex
  split <;> simp <;> omega

/-- `AddFlipAction` appends exactly one edge, at the source literal. -/
theorem actions_AddFlipAction (s : Store) (src dst b : Int) (hsrc : src ≠ 0) (hb : b ≠ 0) :
    ((s.AddFlipAction src dst).FindAtom b).actions =
      (s.FindAtom b).actions ++ (if b = src then [dst] else []) := by
  unfold Store.AddFlipAction
  rw [FindAtom_updAtom s src _ b hsrc hb]
  split
  · next hbs =>
    rw [hbs]
  · next hbs =>
    simp

theorem fields_AddFlipAction (s : Store) (src dst b : Int) :
    ((s.AddFlipAction src dst).FindAtom b).sumLess = (s.FindAtom b).sumLess ∧
    ((s.AddFlipAction src dst).FindAtom b).trigElems = (s.FindAtom b).trigElems ∧
    ((s.AddFlipAction src dst).FindAtom b).trigNum = (s.FindAtom b).trigNum ∧
    ((s.AddFlipAction src dst).FindAtom b).flipped = (s.FindAtom b).flipped := by
  unfold Store.AddFlipAction
  refine ⟨?_, ?_, ?_, ?_⟩
  · apply FindAtom_updAtom_field
    intro t
    rfl
  · apply FindAtom_updAtom_field
    intro t
    rfl
  · apply FindAtom_updAtom_field
    intro t
    rfl
  · apply FindAtom_updAtom_field
    intro t
    rfl

/-- `AddBoolLe` on two recognised literals succeeds and appends exactly the
two edges `L → R` and `-R → -L`; no other record and no other field
changes. -/
theorem AddBoolLe_edges (cl : Nat → Option (Nat × Bool)) (s : Store) (l r : Nat)
    (lp rp : Nat × Bool) (hl : cl l = some lp) (hr : cl r = some rp) :
    (AddBoolLe cl s l r).1 = true ∧
    (∀ b : Int, b ≠ 0 →
      ((AddBoolLe cl s l r).2.FindAtom b).actions =
        (s.FindAtom b).actions
          ++ (if b = (s.Index lp.1 lp.2).2
              then [((s.Index lp.1 lp.2).1.Index rp.1 rp.2).2] else [])
          ++ (if b = -((s.Index lp.1 lp.2).1.Index rp.1 rp.2).2
              then [-(s.Index lp.1 lp.2).2] else [])) ∧
    (∀ b : Int,
      ((AddBoolLe cl s l r).2.FindAtom b).sumLess = (s.FindAtom b).sumLess ∧
      ((AddBoolLe cl s l r).2.FindAtom b).trigElems = (s.FindAtom b).trigElems ∧
      ((AddBoolLe cl s l r).2.FindAtom b).trigNum = (s.FindAtom b).trigNum ∧
      ((AddBoolLe cl s l r).2.FindAtom b).flipped = (s.FindAtom b).flipped) := by
  unfold AddBoolLe
  rw [hl, hr]
  have hla : (s.Index lp.1 lp.2).2 ≠ 0 := Index_snd_ne_zero s lp.1 lp.2
  have hra : ((s.Index lp.1 lp.2).1.Index rp.1 rp.2).2 ≠ 0 :=
    Index_snd_ne_zero (s.Index lp.1 lp.2).1 rp.1 rp.2
  refine ⟨rfl, ?_, ?_⟩
  · intro b hb
    simp only []
    rw [actions_AddFlipAction _ _ _ b (by omega) hb]
    rw [actions_AddFlipAction _ _ _ b hla hb]
    rw [FindAtom_Index, FindAtom_Index]
  · intro b
    simp only []
    have h1 := fields_AddFlipAction (((s.Index lp.1 lp.2).1.Index rp.1 rp.2).1.AddFlipAction
        (s.Index lp.1 lp.2).2 ((s.Index lp.1 lp.2).1.Index rp.1 rp.2).2)
      (-((s.Index lp.1 lp.2).1.Index rp.1 rp.2).2) (-(s.Index lp.1 lp.2).2) b
    have h2 := fields_AddFlipAction ((s.Index lp.1 lp.2).1.Index rp.1 rp.2).1
      (s.Index lp.1 lp.2).2 ((s.Index lp.1 lp.2).1.Index rp.1 rp.2).2 b
    refine ⟨?_, ?_, ?_, ?_⟩
    · rw [h1.1, h2.1, FindAtom_Index, FindAtom_Index]
    · rw [h1.2.1, h2.2.1, FindAtom_Index, FindAtom_Index]
    · rw [h1.2.2.1, h2.2.2.1, FindAtom_Index, FindAtom_Index]
    · rw [h1.2.2.2, h2.2.2.2, FindAtom_Index, FindAtom_Index]

/-! ### Concrete scenario stores -/

/-- A classifier recognising every expression as the positive literal of the
equally numbered variable. -/
def clAll : Nat → Option (Nat × Bool) := fun e => some (e, false)

/-- `postEqual(A, B)` on a fresh store: variables `0`, `1`; literals `A = 1`,
`B = 2`. -/
def sEq : Store := (AddBoolEq clAll emptyStore 0 1).2

/-- `postLessEqual(A, B)` on a fresh store: literals `A = 1`, `B = 2`. -/
def sLe : Store := (AddBoolLe clAll emptyStore 0 1).2

/-- Two one-shot (`k = 1`) trigger constraints with no actions, both
listening on literal `1`. -/
def sTrig2 : Store :=
  stPost (stPost ((emptyStore.TrueIndex 0).1) ⟨[1], 1, []⟩) ⟨[1], 1, []⟩

/-- One one-shot trigger constraint listening on literal `1`. -/
def sTrig1 : Store := stPost ((emptyStore.TrueIndex 0).1) ⟨[1], 1, []⟩

/-- An at-most-1 constraint over the single member literal `1`, with the
member already flipped and the counter already at the bound. -/
def sAM1 : Store :=
  { indices := [0], atomsSize := 1,
    trueAtoms := fun k => if k = 0 then ⟨[0], [], 0, [], true⟩ else Atom.mk0,
    falseAtoms := fun _ => Atom.mk0,
    slCts := [⟨[1], 1⟩], slSums := [1], stCts := [], stSums := [], trigLog := [] }

theorem IsFlipped_empty (a : Int) : emptyStore.IsFlipped a = false := by
  unfold Store.IsFlipped Store.FindAtom emptyStore
  split
  · rfl
  · split <;> rfl

theorem nocontra_empty : NoContra emptyStore := by
  intro a ha
  rw [IsFlipped_empty] at ha
  exact Bool.noConfusion ha.1

theorem detached_empty (ct : Nat) : detachedTrig emptyStore ct := by
  intro b
  show actCnt (emptyStore.FindAtom b).trigElems (emptyStore.FindAtom b).trigNum ct = 0
  unfold Store.FindAtom emptyStore
  split <;> rfl

/-! ### The claims -/

/-- C1 (code bug): `AddBoolEq` wires the cyclic edges `A → B`, `B → A`,
`-A → -B`, `-B → -A`, and `Store::Flip` never skips an already-flipped atom,
so flipping any of the four literals makes the cascade revisit its starting
atom and die on `CHECK(!flipped_.Switched())` in `Atom::Flip` (`Res.error`),
instead of reaching the claimed failure-free fixpoint with `A` and `B` both
flipped. -/
theorem claim_C1_addBoolEq_cascade_hits_check :
    (AddBoolEq clAll emptyStore 0 1).1 = true
  ∧ run 10 sEq (.storeC 1) = .error
  ∧ run 10 sEq (.storeC 2) = .error
  ∧ run 10 sEq (.storeC (-1)) = .error
  ∧ run 10 sEq (.storeC (-2)) = .error :=
  ⟨rfl, rfl, rfl, rfl, rfl⟩

/-- C2: `Store::Flip` fails on the sentinel or when the opposite literal is
already flipped, without touching any flag; otherwise it delegates to
`Atom::Flip`; forcing the negation of a flipped literal therefore signals
failure, and no successful step ever leaves a literal and its negation both
flipped. -/
theorem claim_C2_store_flip_guard :
    ∀ (n : Nat) (s : Store) (a : Int),
      (a = kFailAtom ∨ s.IsFlipped (-a) = true → run (n + 1) s (.storeC a) = .fail)
    ∧ (a ≠ kFailAtom → s.IsFlipped (-a) = false → run (n + 1) s (.storeC a) = run n s (.atomC a))
    ∧ (a ≠ 0 → s.IsFlipped a = true → run (n + 1) s (.storeC (-a)) = .fail)
    ∧ (∀ s', NoContra s → run n s (.storeC a) = .ok s' → NoContra s') := by
  intro n s a
  refine ⟨?_, ?_, ?_, ?_⟩
  · intro hc
    simp only [run]
    rw [if_pos hc]
  · intro h1 h2
    simp only [run]
    rw [if_neg (by
      rintro (hc | hc)
      · exact h1 hc
      · rw [h2] at hc
        exact Bool.noConfusion hc)]
  · intro ha hf
    simp only [run]
    rw [if_pos (Or.inr (by rw [neg_neg]; exact hf))]
  · intro s' hNC hrun
    exact nocontra_run n _ s s' hNC hrun trivial

/-- C2 witness: concrete instances of all four parts. -/
theorem claim_C2_store_flip_guard_witness :
    run 5 emptyStore (.storeC 0) = .fail
  ∧ run 5 emptyStore (.storeC 1) = run 4 emptyStore (.atomC 1)
  ∧ run 5 (emptyStore.setFlag 1) (.storeC (-1)) = .fail
  ∧ NoContra (emptyStore.setFlag 1) :=
  ⟨(claim_C2_store_flip_guard 4 emptyStore 0).1 (Or.inl rfl),
   (claim_C2_store_flip_guard 4 emptyStore 1).2.1 (by decide) (by rfl),
   (claim_C2_store_flip_guard 4 (emptyStore.setFlag 1) 1).2.2.1 (by decide) (by rfl),
   (claim_C2_store_flip_guard 4 emptyStore 1).2.2.2 (emptyStore.setFlag 1) nocontra_empty rfl⟩

/-- C3 (code bug): the first call to `Store::TrueIndex` on a fresh store
returns literal `1` but resizes `true_atoms_`/`false_atoms_` only to
`raw_index = 0`, so the slot of the returned literal lies outside the
allocated range of the vectors (`FindAtom` would read one past the end; no
`Atom` object is ever constructed anywhere in the file). -/
theorem claim_C3_trueIndex_out_of_range :
    (emptyStore.TrueIndex 0).2 = 1
  ∧ (emptyStore.TrueIndex 0).1.atomsSize = 0
  ∧ ¬((emptyStore.TrueIndex 0).1.atomInRange 1)
  ∧ ¬((emptyStore.TrueIndex 0).1.atomInRange (-1)) := by
  refine ⟨rfl, rfl, ?_, ?_⟩ <;> decide

/-- C9: if the classifier rejects either argument, each posting helper
returns `false` and the store is returned unchanged — no slot, no edge, no
listener. -/
theorem claim_C9_helpers_mutate_nothing_on_reject :
    ∀ (cl : Nat → Option (Nat × Bool)) (s : Store) (l r : Nat),
      cl l = none ∨ cl r = none →
      AddBoolEq cl s l r = (false, s) ∧ AddBoolLe cl s l r = (false, s) ∧
        AddBoolNot cl s l r = (false, s) := by
  intro cl s l r h
  unfold AddBoolEq AddBoolLe AddBoolNot
  rcases h with h | h
  · rw [h]
    exact ⟨rfl, rfl, rfl⟩
  · cases hcl : cl l with
    | none => exact ⟨rfl, rfl, rfl⟩
    | some lp =>
      rw [h]
      exact ⟨rfl, rfl, rfl⟩

/-- C9 witness: a classifier rejecting everything. -/
theorem claim_C9_helpers_mutate_nothing_on_reject_witness :
    AddBoolEq (fun _ => none) emptyStore 0 1 = (false, emptyStore)
  ∧ AddBoolLe (fun _ => none) emptyStore 0 1 = (false, emptyStore)
  ∧ AddBoolNot (fun _ => none) emptyStore 0 1 = (false, emptyStore) :=
  claim_C9_helpers_mutate_nothing_on_reject (fun _ => none) emptyStore 0 1 (Or.inl rfl)

/-- C4: `SumLessConstant::Flip` increments the reversible counter by
exactly one; calling `v` the new value and `k` the bound: `v > k` signals
failure, `v = k` runs the closure `UnflipAllPending` (which flips the
negation of every member literal not yet flipped — see `Call.unflipC`), and
any other value returns normally with no further effect.  The comparisons
are exactly `> k` and `= k`. -/
theorem claim_C4_sumLess_flip_thresholds :
    ∀ (n : Nat) (s : Store) (ci : Nat), ci < s.slSums.length →
      ((s.slSums.set ci (s.slSums.getD ci 0 + 1)).getD ci 0 = s.slSums.getD ci 0 + 1)
    ∧ (∀ v k : Int, v = (s.slSums.set ci (s.slSums.getD ci 0 + 1)).getD ci 0 →
        k = (s.slCts.getD ci ⟨[], 0⟩).constant →
        (v > k → run (n + 1) s (.slcC ci) = .fail)
      ∧ (v = k → run (n + 1) s (.slcC ci) =
          run n { s with slSums := s.slSums.set ci (s.slSums.getD ci 0 + 1) } (.unflipC ci 0))
      ∧ (¬v > k → ¬v = k → run (n + 1) s (.slcC ci) =
          .ok { s with slSums := s.slSums.set ci (s.slSums.getD ci 0 + 1) })) := by
  intro n s ci hlen
  constructor
  · rw [getD_set, if_pos ⟨rfl, hlen⟩]
  · rintro v k rfl rfl
    refine ⟨?_, ?_, ?_⟩
    · intro hgt
      simp only [run]
      rw [if_pos hgt]
    · intro heq
      simp only [run]
      rw [if_neg (by omega), if_pos heq]
    · intro h1 h2
      simp only [run]
      rw [if_neg h1, if_neg h2]

/-- Fresh store with one posted `SumLessConstant` over no members with the
given bound. -/
def sK (k : Int) : Store := slcPost emptyStore ⟨[], k⟩

/-- The `sK k` store after the counter increment of `SumLessConstant::Flip`. -/
def sKup (k : Int) : Store :=
  { sK k with slSums := (sK k).slSums.set 0 ((sK k).slSums.getD 0 0 + 1) }

/-- C4 witness: all three outcomes on concrete stores. -/
theorem claim_C4_sumLess_flip_thresholds_witness :
    ((sK 0).slSums.set 0 ((sK 0).slSums.getD 0 0 + 1)).getD 0 0 = (sK 0).slSums.getD 0 0 + 1
  ∧ run 3 (sK 0) (.slcC 0) = .fail
  ∧ run 3 (sK 1) (.slcC 0) = run 2 (sKup 1) (.unflipC 0 0)
  ∧ run 3 (sK 2) (.slcC 0) = .ok (sKup 2) :=
  ⟨(claim_C4_sumLess_flip_thresholds 2 (sK 0) 0 (by decide)).1,
   ((claim_C4_sumLess_flip_thresholds 2 (sK 0) 0 (by decide)).2 _ _ rfl rfl).1 (by decide),
   ((claim_C4_sumLess_flip_thresholds 2 (sK 1) 0 (by decide)).2 _ _ rfl rfl).2.1 (by decide),
   ((claim_C4_sumLess_flip_thresholds 2 (sK 2) 0 (by decide)).2 _ _ rfl rfl).2.2
     (by decide) (by decide)⟩

/-- C5: on a member flip, `SumTriggerAction::Flip` increments its counter;
when the new value reaches the threshold it first stops listening on every
member literal and then runs `FlipAllAction` (the in-order flip of the
action list, `Call.flipAllC`); `StopListening` leaves the constraint
registered nowhere (given the posting invariant), and once detached its
`Flip` is never invoked again by any successful flip for the remainder of
the branch (ghost log count stays constant). -/
theorem claim_C5_trigger_deregisters_then_fires :
    (∀ (n : Nat) (s : Store) (ci : Nat) (a : Int), ci < s.stSums.length →
      (({ s with stSums := s.stSums.set ci (s.stSums.getD ci 0 + 1),
                 trigLog := s.trigLog ++ [(ci, a)] } : Store).stSums.getD ci 0
          = s.stSums.getD ci 0 + 1)
      ∧ ((s.stSums.set ci (s.stSums.getD ci 0 + 1)).getD ci 0
            ≥ (s.stCts.getD ci ⟨[], 0, []⟩).constant →
          run (n + 1) s (.stC ci a) =
            run n (stopListeningAll
              { s with stSums := s.stSums.set ci (s.stSums.getD ci 0 + 1),
                       trigLog := s.trigLog ++ [(ci, a)] } ci) (.flipAllC ci 0))
      ∧ (¬((s.stSums.set ci (s.stSums.getD ci 0 + 1)).getD ci 0
            ≥ (s.stCts.getD ci ⟨[], 0, []⟩).constant) →
          run (n + 1) s (.stC ci a) =
            .ok { s with stSums := s.stSums.set ci (s.stSums.getD ci 0 + 1),
                         trigLog := s.trigLog ++ [(ci, a)] }))
  ∧ (∀ (s : Store) (ci : Nat),
      (∀ b : Int, b ≠ 0 → trigCntOf s b ci = ((s.stCts.getD ci ⟨[], 0, []⟩).vars).count b) →
      trigWF s → (0 : Int) ∉ (s.stCts.getD ci ⟨[], 0, []⟩).vars →
      detachedTrig (stopListeningAll s ci) ci)
  ∧ (∀ (n : Nat) (s s' : Store) (b : Int) (ci : Nat),
      detachedTrig s ci → run n s (.storeC b) = .ok s' →
      detachedTrig s' ci ∧ logCt s' ci = logCt s ci) := by
  refine ⟨?_, ?_, ?_⟩
  · intro n s ci a hlen
    refine ⟨by rw [getD_set, if_pos ⟨rfl, hlen⟩], ?_, ?_⟩
    · intro hge
      simp only [run]
      rw [if_pos hge]
    · intro hge
      simp only [run]
      rw [if_neg hge]
  · intro s ci hmult hWF h0
    exact stopListen_fold_detaches ci _ s hmult hWF h0
  · intro n s s' b ci hd h
    exact detach_run ci n (.storeC b) s s' hd h trivial

/-- The `sTrig1` store after the counter/log update of the trigger's
`Flip`. -/
def sTrig1up : Store :=
  { sTrig1 with stSums := sTrig1.stSums.set 0 (sTrig1.stSums.getD 0 0 + 1),
                trigLog := sTrig1.trigLog ++ [(0, 1)] }

theorem trigMult_sTrig1 : ∀ b : Int, b ≠ 0 →
    trigCntOf sTrig1 b 0 = ((sTrig1.stCts.getD 0 ⟨[], 0, []⟩).vars).count b := by
  intro b hb
  by_cases hb1 : b = 1
  · subst hb1
    decide
  · have hR : ((sTrig1.stCts.getD 0 ⟨[], 0, []⟩).vars).count b = 0 := by
      rw [List.count_eq_zero]
      intro hc
      show False
      have : b = 1 := by
        have hmem : b ∈ ([1] : List Int) := hc
        simpa using hmem
      exact hb1 this
    rw [hR]
    unfold trigCntOf Store.FindAtom
    by_cases hpb : 0 < b
    · rw [if_pos hpb]
      have hslot : (b - 1).toNat ≠ 0 := by omega
      show actCnt (sTrig1.trueAtoms ((b - 1).toNat)).trigElems
        (sTrig1.trueAtoms ((b - 1).toNat)).trigNum 0 = 0
      have : sTrig1.trueAtoms ((b - 1).toNat) = Atom.mk0 := by
        show (if (b - 1).toNat = 0 then (⟨[], [0], 1, [], false⟩ : Atom) else Atom.mk0) = Atom.mk0
        rw [if_neg hslot]
      rw [this]
      rfl
    · rw [if_neg hpb]
      have : sTrig1.falseAtoms ((-1 - b).toNat) = Atom.mk0 := rfl
      rw [this]
      rfl

theorem trigWF_sTrig1 : trigWF sTrig1 := by
  intro b
  unfold Store.FindAtom
  by_cases hpb : 0 < b
  · rw [if_pos hpb]
    show (sTrig1.trueAtoms ((b - 1).toNat)).trigNum ≤ _
    by_cases hslot : (b - 1).toNat = 0
    · rw [hslot]
      decide
    · have : sTrig1.trueAtoms ((b - 1).toNat) = Atom.mk0 := by
        show (if (b - 1).toNat = 0 then (⟨[], [0], 1, [], false⟩ : Atom) else Atom.mk0) = Atom.mk0
        rw [if_neg hslot]
      rw [this]
      exact le_refl 0
  · rw [if_neg hpb]
    exact le_refl 0

/-- C5 witness: a one-shot trigger on literal `1` fires once, deregisters,
and a subsequent successful flip neither re-invokes it nor re-registers
it. -/
theorem claim_C5_trigger_deregisters_then_fires_witness :
    (sTrig1up.stSums.getD 0 0 = sTrig1.stSums.getD 0 0 + 1)
  ∧ run 3 sTrig1 (.stC 0 1) = run 2 (stopListeningAll sTrig1up 0) (.flipAllC 0 0)
  ∧ detachedTrig (stopListeningAll sTrig1 0) 0
  ∧ (detachedTrig (emptyStore.setFlag 1) 0 ∧ logCt (emptyStore.setFlag 1) 0 = logCt emptyStore 0) :=
  ⟨(claim_C5_trigger_deregisters_then_fires.1 2 sTrig1 0 1 (by decide)).1,
   (claim_C5_trigger_deregisters_then_fires.1 2 sTrig1 0 1 (by decide)).2.1 (by decide),
   claim_C5_trigger_deregisters_then_fires.2.1 sTrig1 0 trigMult_sTrig1 trigWF_sTrig1 (by decide),
   claim_C5_trigger_deregisters_then_fires.2.2 4 emptyStore (emptyStore.setFlag 1) 1 0
     (detached_empty 0) rfl⟩

/-- C6 counterexample: two one-shot trigger constraints (`0` and `1`) both
listen on literal `1` (active multiplicity one each).  Flipping literal `1`
succeeds, but only constraint `0` is invoked (the ghost log is `[(0, 1)]`
and constraint `1`'s counter stays `0`): when constraint `0` deregistered
itself, `RemoveElement` swapped constraint `1` into the already-visited
position `0` and shrank the set, so the loop in `Atom::Flip` terminated
with constraint `1` — still registered — never invoked.  This refutes
"each constraint listening at call time is invoked exactly once" and "no
still-registered listener is skipped". -/
theorem cex_C6_removal_by_swap_skips_listener :
    trigCntOf sTrig2 1 0 = 1 ∧ trigCntOf sTrig2 1 1 = 1
  ∧ onOk (run 20 sTrig2 (.storeC 1)) (fun st =>
      (st.stSums == [1, 0]) && (st.trigLog == [(0, 1)]) &&
      ((st.FindAtom 1).trigNum == 1) && ((st.FindAtom 1).trigElems.getD 0 99 == 1)) = true :=
  ⟨by decide, by decide, by decide⟩

/-- C6 (amended): `Atom::Flip` iterates the trigger-listener set by
position, while the position is below the set's current size, invoking the
constraint at that position; a constraint that deregisters itself during
this very call is not revisited — once it is registered nowhere, no
successful flip cascade invokes it again; however, a removal-by-swap can
move a still-registered listener into an already-visited position, in which
case that listener is skipped (see the counterexample). -/
theorem claim_C6_amended_listener_iteration :
    (∀ (n : Nat) (s : Store) (a : Int) (i : Nat),
      run (n + 1) s (.stsC a i) =
        if i < (s.FindAtom a).trigNum then
          bindRes (run n s (.stC ((s.FindAtom a).trigElems.getD i 0) a))
            (fun s2 => run n s2 (.stsC a (i + 1)))
        else .ok s)
  ∧ (∀ (n : Nat) (s s' : Store) (a : Int) (ct : Nat),
      detachedTrig s ct → run n s (.atomC a) = .ok s' →
      detachedTrig s' ct ∧ logCt s' ct = logCt s ct) := by
  constructor
  · intro n s a i
    rfl
  · intro n s s' a ct hd h
    exact detach_run ct n (.atomC a) s s' hd h trivial

/-- C6 witness: the detachment part at a concrete input. -/
theorem claim_C6_amended_listener_iteration_witness :
    detachedTrig (emptyStore.setFlag 2) 1 ∧ logCt (emptyStore.setFlag 2) 1 = logCt emptyStore 1 :=
  claim_C6_amended_listener_iteration.2 4 emptyStore (emptyStore.setFlag 2) 2 1
    (detached_empty 1) rfl

/-- C7: whenever the closure loop `UnflipAllPending` of a `SumLessConstant`
with bound `k` runs to completion without a signalled failure, the number of
member literals flipped true is exactly `k` (given the posting invariant
and a counter that matches the flipped members and sits exactly at the
bound, which is how `Flip` invokes the closure). -/
theorem claim_C7_closure_reaches_exactly_k :
    ∀ (n : Nat) (s : Store) (cs : Nat) (s' : Store),
      listenWF s cs → cs < s.slSums.length →
      (flippedCnt s cs : Int) = sumOf s cs →
      sumOf s cs = (s.slCts.getD cs ⟨[], 0⟩).constant →
      run n s (.unflipC cs 0) = .ok s' →
      (flippedCnt s' cs : Int) = (s.slCts.getD cs ⟨[], 0⟩).constant := by
  intro n s cs s' hWF hlen hfc hsum hrun
  have r := debt_run cs ((s.slCts.getD cs ⟨[], 0⟩).constant) n (.unflipC cs 0) s s'
    hWF hlen rfl hrun trivial
  have e := r.1
  simp only [debtDelta] at e
  have hmono := r.2.1
  have hbound := r.2.2 (le_of_eq hsum)
  omega

theorem listenWF_sAM1 : listenWF sAM1 0 := by
  intro b hb
  by_cases hb1 : b = 1
  · subst hb1
    decide
  · have hR : ((sAM1.slCts.getD 0 ⟨[], 0⟩).vars).count b = 0 := by
      rw [List.count_eq_zero]
      intro hc
      have hmem : b ∈ ([1] : List Int) := hc
      exact hb1 (by simpa using hmem)
    show (sAM1.FindAtom b).sumLess.count 0 = _
    rw [hR]
    unfold Store.FindAtom
    by_cases hpb : 0 < b
    · rw [if_pos hpb]
      have hslot : (b - 1).toNat ≠ 0 := by omega
      have : sAM1.trueAtoms ((b - 1).toNat) = Atom.mk0 := by
        show (if (b - 1).toNat = 0 then (⟨[0], [], 0, [], true⟩ : Atom) else Atom.mk0) = Atom.mk0
        rw [if_neg hslot]
      rw [this]
      rfl
    · rw [if_neg hpb]
      rfl

/-- C7 witness: at-most-1 over the single member `1`, already flipped and
counted; the closure loop completes and exactly one member is flipped. -/
theorem claim_C7_closure_reaches_exactly_k_witness :
    listenWF sAM1 0 ∧ (flippedCnt sAM1 0 : Int) = sumOf sAM1 0
  ∧ sumOf sAM1 0 = 1 ∧ run 3 sAM1 (.unflipC 0 0) = .ok sAM1
  ∧ (flippedCnt sAM1 0 : Int) = 1 :=
  ⟨listenWF_sAM1, by decide, by decide, rfl,
   claim_C7_closure_reaches_exactly_k 3 sAM1 0 sAM1 listenWF_sAM1 (by decide)
     (by decide) (by decide) rfl⟩

/-- C8: `AddBoolLe` on recognised literals adds exactly the two edges
`L → R` and `-R → -L` (every other record and field unchanged), and in the
canonical isolated instance (`A = 1`, `B = 2`): flipping `A` forces `B`,
flipping `-B` forces `-A`, while flipping `B` leaves `A` unflipped and
flipping `-A` leaves `-B` unflipped — the converse directions are not
forced. -/
theorem claim_C8_addBoolLe_forward_only :
    (∀ (cl : Nat → Option (Nat × Bool)) (s : Store) (l r : Nat) (lp rp : Nat × Bool),
      cl l = some lp → cl r = some rp →
      (AddBoolLe cl s l r).1 = true ∧
      (∀ b : Int, b ≠ 0 →
        ((AddBoolLe cl s l r).2.FindAtom b).actions =
          (s.FindAtom b).actions
            ++ (if b = (s.Index lp.1 lp.2).2
                then [((s.Index lp.1 lp.2).1.Index rp.1 rp.2).2] else [])
            ++ (if b = -((s.Index lp.1 lp.2).1.Index rp.1 rp.2).2
                then [-(s.Index lp.1 lp.2).2] else [])) ∧
      (∀ b : Int,
        ((AddBoolLe cl s l r).2.FindAtom b).sumLess = (s.FindAtom b).sumLess ∧
        ((AddBoolLe cl s l r).2.FindAtom b).trigElems = (s.FindAtom b).trigElems ∧
        ((AddBoolLe cl s l r).2.FindAtom b).trigNum = (s.FindAtom b).trigNum ∧
        ((AddBoolLe cl s l r).2.FindAtom b).flipped = (s.FindAtom b).flipped))
  ∧ onOk (run 10 sLe (.storeC 1)) (fun st => st.IsFlipped 2) = true
  ∧ onOk (run 10 sLe (.storeC (-2))) (fun st => st.IsFlipped (-1)) = true
  ∧ onOk (run 10 sLe (.storeC 2)) (fun st => !(st.IsFlipped 1) && st.IsFlipped 2) = true
  ∧ onOk (run 10 sLe (.storeC (-1))) (fun st => !(st.IsFlipped (-2)) && st.IsFlipped (-1)) = true :=
  ⟨fun cl s l r lp rp hl hr => AddBoolLe_edges cl s l r lp rp hl hr,
   by decide, by decide, by decide, by decide⟩

/-- C8 witness: the general part at the canonical instance; the two edges
land on the records of `A = 1` and `-B = -2` only. -/
theorem claim_C8_addBoolLe_forward_only_witness :
    (AddBoolLe clAll emptyStore 0 1).1 = true
  ∧ (sLe.FindAtom 1).actions = [2]
  ∧ (sLe.FindAtom (-2)).actions = [-1]
  ∧ (sLe.FindAtom 2).actions = []
  ∧ (sLe.FindAtom (-1)).actions = [] := by
  have h := claim_C8_addBoolLe_forward_only.1 clAll emptyStore 0 1 (0, false) (1, false) rfl rfl
  refine ⟨h.1, ?_, ?_, ?_, ?_⟩
  · exact (h.2.1 1 (by decide)).trans (by decide)
  · exact (h.2.1 (-2) (by decide)).trans (by decide)
  · exact (h.2.1 2 (by decide)).trans (by decide)
  · exact (h.2.1 (-1) (by decide)).trans (by decide)

/-- C10: `Store::IsFlipped` answers `false` for the fail sentinel before
any record is addressed (by definition its record branch is never taken), so
the membership tests of the closure loop treat the sentinel as never
flipped. -/
theorem claim_C10_isFlipped_sentinel : ∀ s : Store, s.IsFlipped kFailAtom = false :=
  fun _ => rfl

end Booleans
